import Mathlib

/-!
Shallow embedding of `music_symlinker.py` (protoconal/python-toys) and proofs
about the claims of its specification.

Modelling conventions:
* Python `str` is modelled as Lean `String` (or `List Char` where character-level
  operations matter, as in `sanitize_for_path`).
* `pathlib.Path` values are modelled as lists of path components (`List String`);
  `Path.name` is the last component, `Path.resolve` is modelled as the identity
  (paths are taken to be absolute already).
* The SQLite `tracks` table is a list of rows with `audio_md5` as primary key;
  `INSERT OR REPLACE` replaces the row with the same key in place.
* The mirror directory is modelled as a finite map from link path to link target
  (an association list); directories are implicit, except in the dedicated tree
  model used for the sweep pass.
* Exceptions raised by the filesystem/SQLite are modelled by explicit boolean
  oracles where the code catches them (`update_tracks_in_db`).
* MD5 itself is kept abstract: `Track._compute_metadata_hash` feeds the hasher
  the UTF-8 bytes of filename, artist, album, title and audio_md5 in that
  order, so the hash is a function of exactly that concatenation
  (`metadataHashInput` below).
-/

namespace MusicSymlinker

/-! ## `sanitize_for_path` (music_symlinker.py lines 142-158) -/

/-- The reserved Windows path characters removed by `sanitize_for_path`
(Python: `r'\/:*?"<>|'`). -/
def illegalChar (c : Char) : Bool :=
  c ∈ ['\\', '/', ':', '*', '?', '"', '<', '>', '|']

/-- Python regex `\s` on ASCII input: space, tab, newline, carriage return,
vertical tab, form feed. -/
def isPySpace (c : Char) : Bool :=
  c ∈ [' ', '\t', '\n', '\r', '\x0b', '\x0c']

/-- One maximal whitespace run as `re.sub('\s{2,}', ' ', s)` rewrites it: a
run of two or more whitespace characters becomes a single space, a shorter run
is kept as it is. -/
def flushRun (run : List Char) : List Char :=
  if 2 ≤ run.length then [' '] else run

/-- Scanner for the regex substitution: `run` accumulates the current maximal
whitespace run, which is flushed through `flushRun` at the next non-whitespace
character or at the end of input. -/
def collapseWsGo : List Char → List Char → List Char
  | run, [] => flushRun run
  | run, c :: rest =>
    if isPySpace c then collapseWsGo (run ++ [c]) rest
    else flushRun run ++ c :: collapseWsGo [] rest

/-- Semantics of `re.sub('\s{2,}', ' ', s)`: every maximal run of two or more
whitespace characters is replaced by a single space; singleton whitespace
characters are kept as they are. -/
def collapseWs (l : List Char) : List Char :=
  collapseWsGo [] l

/-- Python `s.lstrip(" ")`: removes leading space characters (only `' '`). -/
def lstripSpaces (l : List Char) : List Char :=
  l.dropWhile (fun c => c = ' ')

/-- Python `s.rstrip(" ")`: removes trailing space characters (only `' '`). -/
def rstripSpaces (l : List Char) : List Char :=
  (l.reverse.dropWhile (fun c => c = ' ')).reverse

/-- `sanitize_for_path(s, sanitizer_length)`: drop reserved characters, collapse
whitespace runs, strip outer spaces, then hard-truncate to `sanitizer_length`
(with the inner absolute ceiling of 250 applied inside the truncation branch,
exactly as in the source). -/
def sanitize_for_path (s : List Char) (sanitizerLength : Nat) : List Char :=
  let s1 := s.filter (fun c => !illegalChar c)
  let s2 := collapseWs s1
  let s3 := rstripSpaces (lstripSpaces s2)
  if s3.length > sanitizerLength then
    let s4 := s3.take sanitizerLength
    if s4.length > 250 then s4.take 250 else s4
  else s3

/-- String-level wrapper of `sanitize_for_path`. -/
def sanitizeStr (s : String) (sanitizerLength : Nat) : String :=
  ⟨sanitize_for_path s.data sanitizerLength⟩

/-! ## Paths -/

/-- A filesystem path, as its list of components.  `pathlib.Path` joining with
`/` is list append. -/
abbrev FsPath := List String

/-- Python `Path.name`: the final path component. -/
def pathName (p : FsPath) : String :=
  p.getLastD ""

/-- Python `Path.resolve()`; source paths are modelled as already absolute, so
resolution is the identity. -/
def resolvePath (p : FsPath) : FsPath := p

/-! ## Track (music_symlinker.py lines 188-268) -/

/-- A `Track` object after `__init__` has run.  `filename` is
`ntpath.basename(str(filepath))` at construction time; `bulk_compare_with_db`
later overwrites `filepath` from the database without touching `filename`, so
the two are separate fields.  `track_number` is kept as the string the tag
yields (the integer default `0` renders as `"0"`). -/
structure Track where
  filepath : FsPath
  filename : String
  metadata_hash : String
  symlink_path : FsPath
  artist_album : String
  album : String
  title : String
  audio_md5 : String
  track_number : String
  safe_filename : Bool
deriving DecidableEq, Repr

/-- The byte stream `_compute_metadata_hash` feeds its MD5 hasher: the UTF-8
encodings of filename, artist, album, title and audio_md5, in that order.  The
version key (`metadata_hash`) is a checksum of exactly this input. -/
def metadataHashInput (t : Track) : List Char :=
  t.filename.data ++ t.artist_album.data ++ t.album.data ++ t.title.data ++ t.audio_md5.data

/-- `_compute_metadata_hash`, with the MD5 digest function abstracted as `h`. -/
def computeMetadataHash (h : List Char → String) (t : Track) : String :=
  h (metadataHashInput t)

/-- `Track.get_safe_symlink_name`: preferred name `title[-md5[:4]].flac`, falling
back to `track_number-md5[:4].flac`, then the original filename, each time the
candidate exceeds `sanitizer_length`; the chosen candidate is sanitized. -/
def get_safe_symlink_name (t : Track) (sanitizerLength : Nat) : String :=
  let safeFileTag := if t.safe_filename then "-" ++ String.mk (t.audio_md5.data.take 4) else ""
  let filename1 := t.title ++ safeFileTag ++ ".flac"
  let filename2 :=
    if filename1.length > sanitizerLength then
      t.track_number ++ "-" ++ String.mk (t.audio_md5.data.take 4) ++ ".flac"
    else filename1
  let filename3 := if filename2.length > sanitizerLength then t.filename else filename2
  sanitizeStr filename3 sanitizerLength

/-! ## Database (music_symlinker.py lines 274-374) -/

/-- One row of the `tracks` table
(`audio_md5, metadata_hash, artist, album, title, filepath, symlink_path`),
with `audio_md5` the primary key. -/
structure DbRow where
  audio_md5 : String
  metadata_hash : String
  artist : String
  album : String
  title : String
  filepath : FsPath
  symlink_path : FsPath
deriving DecidableEq, Repr

/-- The `tracks` table: a list of rows, unique in `audio_md5` (primary key). -/
abbrev Db := List DbRow

/-- `Track.to_tuple`, as the row it inserts. -/
def Track.toRow (t : Track) : DbRow :=
  ⟨t.audio_md5, t.metadata_hash, t.artist_album, t.album, t.title, t.filepath, t.symlink_path⟩

/-- Row lookup by primary key (`SELECT ... WHERE audio_md5 = k`). -/
def rowLookup (db : Db) (k : String) : Option DbRow :=
  db.find? (fun r => r.audio_md5 == k)

/-- `INSERT OR REPLACE` of a single row: replace the row with the same primary
key in place, or append when absent. -/
def upsertRow (db : Db) (r : DbRow) : Db :=
  if db.any (fun x => x.audio_md5 == r.audio_md5) then
    db.map (fun x => if x.audio_md5 == r.audio_md5 then r else x)
  else
    db ++ [r]

/-- `cursor.executemany` of the upsert statement over a list of rows. -/
def upsertRows (db : Db) (rs : List DbRow) : Db :=
  rs.foldl upsertRow db

/-- `establish_db_connection`: opening the connection creates the backing
database file (with an empty `tracks` table) when it does not exist; the first
component is the table content seen through the connection, the second the
state of the backing file after `CREATE TABLE IF NOT EXISTS` + `commit`. -/
def establish_db_connection : Option Db → Db × Option Db
  | none => ([], some [])
  | some rows => (rows, some rows)

/-- `update_tracks_in_db`: bulk upsert of a batch.  In dry-run mode it only
logs and reports success.  Otherwise the SQLite `executemany` + `commit` either
applies the whole batch (`ok = true`) or raises (`ok = false`), in which case
nothing is committed and `False` is returned to the caller. -/
def update_tracks_in_db (tracks : List Track) (db : Db) (dryRun : Bool) (ok : Bool) :
    Db × Bool :=
  if dryRun then (db, true)
  else if ok then (upsertRows db (tracks.map Track.toRow), true)
  else (db, false)

/-- `compare_tracks`: a track has changed exactly when its `metadata_hash`
differs from the previous one. -/
def compare_tracks (current previous : Track) : Bool :=
  current.metadata_hash != previous.metadata_hash

/-- One value of the dictionary `bulk_compare_with_db` returns:
`{"result": ..., "previousTrack": ...}`. -/
structure DiffResult where
  result : Bool
  previousTrack : Track
deriving DecidableEq, Repr

/-- Overwriting insertion into a Python-dict model. -/
def dictInsert (m : String → Option α) (k : String) (v : α) : String → Option α :=
  fun x => if x = k then some v else m x

/-- A Python dict built by one pass over a list, keyed by `keyOf`, skipping the
elements on which `valOf` is `none`; later elements overwrite earlier ones. -/
def dictOfList (keyOf : α → String) (valOf : α → Option β) (l : List α) :
    String → Option β :=
  l.foldl
    (fun m x =>
      match valOf x with
      | some v => dictInsert m (keyOf x) v
      | none => m)
    (fun _ => none)

/-- The dict comprehension
`{track.audio_md5: track for track in tracks if track.audio_md5}`. -/
def trackMapOf (tracks : List Track) : String → Option Track :=
  dictOfList (fun t => t.audio_md5)
    (fun t => if t.audio_md5 = "" then none else some t) tracks

/-- In `bulk_compare_with_db`, the cached track for a row's key is deep-copied
and its artist, album, title, filepath, symlink_path and metadata_hash are
overwritten with the values stored in the row. -/
def reconstructTrack (base : Track) (r : DbRow) : Track :=
  { base with
    artist_album := r.artist
    album := r.album
    title := r.title
    filepath := r.filepath
    symlink_path := r.symlink_path
    metadata_hash := r.metadata_hash }

/-- The keys sent to the `SELECT ... IN` query: the `audio_md5` of every track
with a non-empty key (dict keys of `track_map`; duplicates are irrelevant to
membership). -/
def hashesOf (tracks : List Track) : List String :=
  (tracks.filter (fun t => t.audio_md5 ≠ "")).map (fun t => t.audio_md5)

/-- The `db_lookup` dict of `bulk_compare_with_db`: for every row the query
returns, the reconstructed previous track, keyed by the row's `audio_md5`.
(The `track_map` lookup cannot miss, because the query only returns keys taken
from `track_map`; the impossible miss is modelled as a skip.) -/
def dbLookupOf (tracks : List Track) (db : Db) : String → Option Track :=
  let rows := db.filter (fun r => (hashesOf tracks).contains r.audio_md5)
  dictOfList (fun r => r.audio_md5)
    (fun r => (trackMapOf tracks r.audio_md5).map (fun base => reconstructTrack base r)) rows

/-- `bulk_compare_with_db`: returns the dict mapping each non-empty
`audio_md5` in the batch to its diff result — `{"result": changed,
"previousTrack": prev}` when the key is in the database, and
`{"result": True, "previousTrack": track}` when it is not. -/
def bulk_compare_with_db (tracks : List Track) (db : Db) : String → Option DiffResult :=
  if hashesOf tracks = [] then fun _ => none
  else
    let dbLookup := dbLookupOf tracks db
    dictOfList (fun t => t.audio_md5)
      (fun t =>
        if t.audio_md5 = "" then none
        else
          match dbLookup t.audio_md5 with
          | some prev => some ⟨compare_tracks t prev, prev⟩
          | none => some ⟨true, t⟩)
      tracks

/-! ## Mirror tree as a link map (symlink functions, music_symlinker.py lines 380-421) -/

/-- The mirror directory, as a finite map from link path to link target. -/
abbrev Mirror := List (FsPath × FsPath)

/-- Target of the link at `p`, if a link exists there. -/
def mirrorLookup (m : Mirror) (p : FsPath) : Option FsPath :=
  (m.find? (fun e => e.1 == p)).map (fun e => e.2)

/-- Creating a link at `p` (after `_create_symlink` has unlinked any existing
one): replace in place or append. -/
def mirrorSet (m : Mirror) (p tgt : FsPath) : Mirror :=
  if m.any (fun e => e.1 == p) then
    m.map (fun e => if e.1 == p then (p, tgt) else e)
  else
    m ++ [(p, tgt)]

/-- Unlinking the link at `p`. -/
def mirrorErase (m : Mirror) (p : FsPath) : Mirror :=
  m.filter (fun e => !(e.1 == p))

/-- The path `remove_symlink` derives for a track:
`Path(baseDir) / track.artist_album / track.album / track.filepath.name` —
note: the raw (unsanitized) artist and album, and the basename of the source
path, not the link filename. -/
def removeSymlinkPath (baseDir : FsPath) (t : Track) : FsPath :=
  baseDir ++ [t.artist_album, t.album, pathName t.filepath]

/-- `remove_symlink`: if a link exists at the derived path it is unlinked
(unless dry-run) and `True` is returned; a missing link returns `False`, not an
error. -/
def remove_symlink (t : Track) (baseDir : FsPath) (dryRun : Bool) (m : Mirror) :
    Mirror × Bool :=
  let p := removeSymlinkPath baseDir t
  if (mirrorLookup m p).isSome then
    (if dryRun then m else mirrorErase m p, true)
  else
    (m, false)

/-- The link path `create_symlink` computes:
`Path(base_dir) / sanitize(artist) / sanitize(album) / get_safe_symlink_name`. -/
def symlinkPathOf (baseDir : FsPath) (t : Track) (sanitizerLength : Nat) : FsPath :=
  baseDir ++ [sanitizeStr t.artist_album sanitizerLength,
              sanitizeStr t.album sanitizerLength,
              get_safe_symlink_name t sanitizerLength]

/-- `create_symlink` (with `_create_symlink` inlined): computes the link path;
unless dry-run it removes any existing link there and links to the resolved
source path; in all cases it records the path on the track object and returns
`True`.  The extra booleans report `created` and whether an existing link was
unlinked first (the replace case). -/
def create_symlink (t : Track) (baseDir : FsPath) (dryRun : Bool) (sanitizerLength : Nat)
    (m : Mirror) : Mirror × Track × Bool × Bool :=
  let p := symlinkPathOf baseDir t sanitizerLength
  let replaced := (mirrorLookup m p).isSome && !dryRun
  let m1 := if dryRun then m else mirrorSet m p (resolvePath t.filepath)
  (m1, { t with symlink_path := p }, true, replaced)

/-- The dangling-link half of `remove_empty_folders_and_broken_symlinks` on the
flat link-map view of the mirror: a link whose target no longer exists is
removed (unless dry-run); the removal count is reported either way.
(Directory pruning is modelled on the tree view below.) -/
def sweepLinks (dryRun : Bool) (sourceExists : FsPath → Bool) (m : Mirror) :
    Mirror × Nat :=
  ((if dryRun then m else m.filter (fun e => sourceExists e.2)),
   (m.filter (fun e => !sourceExists e.2)).length)

/-! ## Sweep on the mirror tree (music_symlinker.py lines 424-456) -/

/-- An entry of the mirror tree: a regular file, a symlink (with a flag telling
whether its target still exists — `dangling = true` means broken), or a
directory with its children.  `os.walk` classifies a broken symlink as a file
(since `isdir` follows the link and fails), which is where the code removes
it. -/
inductive FsEntry where
  | file (name : String)
  | link (name : String) (dangling : Bool)
  | dir (name : String) (children : List FsEntry)

/-- Number of dangling links anywhere in a list of entries. -/
def danglingCount : List FsEntry → Nat
  | [] => 0
  | .file _ :: rest => danglingCount rest
  | .link _ d :: rest => (if d then 1 else 0) + danglingCount rest
  | .dir _ cs :: rest => danglingCount cs + danglingCount rest

/-- Number of directory nodes anywhere in a list of entries. -/
def dirCount : List FsEntry → Nat
  | [] => 0
  | .file _ :: rest => dirCount rest
  | .link _ _ :: rest => dirCount rest
  | .dir _ cs :: rest => 1 + dirCount cs + dirCount rest

/-- `remove_empty_folders_and_broken_symlinks`, bottom-up as `os.walk` with
`topdown=False` performs it: each directory's subtree is processed before the
directory's own listing; at each directory the broken symlinks among its files
are removed, then any child directory that is empty after its own cleanup is
removed.  Result: the cleaned entries, the number of links removed and the
number of directories removed. -/
def sweepEntries : List FsEntry → List FsEntry × Nat × Nat
  | [] => ([], 0, 0)
  | .file n :: rest =>
    let (r, l, m) := sweepEntries rest
    (.file n :: r, l, m)
  | .link n d :: rest =>
    let (r, l, m) := sweepEntries rest
    if d then (r, l + 1, m) else (.link n d :: r, l, m)
  | .dir n cs :: rest =>
    let (cs1, l1, m1) := sweepEntries cs
    let (r, l2, m2) := sweepEntries rest
    if cs1.isEmpty then (r, l1 + l2, m1 + m2 + 1)
    else (.dir n cs1 :: r, l1 + l2, m1 + m2)

/-- A list of entries on which the sweep has nothing left to do: no dangling
link and no empty directory anywhere. -/
def cleanEntries : List FsEntry → Bool
  | [] => true
  | .file _ :: rest => cleanEntries rest
  | .link _ d :: rest => !d && cleanEntries rest
  | .dir _ cs :: rest => !cs.isEmpty && cleanEntries cs && cleanEntries rest

/-- Total number of nodes of a list of entries (induction measure). -/
def entriesSize : List FsEntry → Nat
  | [] => 0
  | .file _ :: rest => 1 + entriesSize rest
  | .link _ _ :: rest => 1 + entriesSize rest
  | .dir _ cs :: rest => 1 + entriesSize cs + entriesSize rest

/-! ## Main loop (music_symlinker.py lines 477-523) -/

/-- Fuelled worker for `chunked`: peels `take size` off the front while input
remains.  The fuel only bounds the recursion (each step consumes at least one
element, so `l.length` fuel always suffices); it keeps the recursion
structural. -/
def chunkedFuel : Nat → List α → Nat → List (List α)
  | _, [], _ => []
  | 0, _ :: _, _ => []
  | fuel + 1, x :: xs, n => ((x :: xs).take n) :: chunkedFuel fuel ((x :: xs).drop n) n

/-- `chunked(iterable, size)`: splits into chunks of `size`; with `size = 0`
the first `islice` is empty and the generator yields nothing. -/
def chunked (l : List α) (size : Nat) : List (List α) :=
  match size with
  | 0 => []
  | n + 1 => chunkedFuel l.length l (n + 1)

/-- The observable calls the run performs, in order.  `removeStale` is an
invocation of `remove_symlink` (on the previous record), `unlinkExisting` the
unlink of an existing link inside `_create_symlink`, `createLink` an invocation
of `create_symlink`; each is tagged with the index of the batch performing
it. -/
inductive Ev where
  | connectDb
  | sweepPre
  | diffBatch (b : Nat)
  | removeStale (b : Nat) (p : FsPath)
  | unlinkExisting (b : Nat) (p : FsPath)
  | createLink (b : Nat) (p : FsPath) (tgt : FsPath)
  | upsertBatch (b : Nat)
  | sweepPost
deriving DecidableEq, Repr

/-- Event classification: the link actions of batch `b`. -/
def Ev.isLinkActionOf (b : Nat) : Ev → Bool
  | .removeStale b' _ => b' == b
  | .unlinkExisting b' _ => b' == b
  | .createLink b' _ _ => b' == b
  | _ => false

/-- The batch an event belongs to, if any. -/
def Ev.batchOf : Ev → Option Nat
  | .diffBatch b => some b
  | .removeStale b _ => some b
  | .unlinkExisting b _ => some b
  | .createLink b _ _ => some b
  | .upsertBatch b => some b
  | _ => none

/-- The run configuration: mirror base directory, batch size, sanitizer length
and the dry-run flag (`--safe-filenames` lives on each track). -/
structure Config where
  baseDir : FsPath
  batchSize : Nat
  sanitizerLength : Nat
  dryRun : Bool
deriving DecidableEq, Repr

/-- Counters of the link mutations a run actually performs. -/
structure RunCounts where
  staleUnlinks : Nat
  replaceUnlinks : Nat
  created : Nat
deriving DecidableEq, Repr

/-- State threaded through one batch's per-track loop. -/
structure BatchState where
  mirror : Mirror
  doneTracks : List Track
  counts : RunCounts
  events : List Ev
deriving DecidableEq, Repr

/-- The body of the per-track loop inside a batch: look the track up in the
diff results (`continue` on a miss — the track still ends up in the batch list
handed to the upsert); on a changed/new result call `remove_symlink` on the
previous record; then always call `create_symlink` on the current track. -/
def processTrack (cfg : Config) (b : Nat) (results : String → Option DiffResult)
    (st : BatchState) (t : Track) : BatchState :=
  match results t.audio_md5 with
  | none => { st with doneTracks := st.doneTracks ++ [t] }
  | some res =>
    let (m1, ev1, stale) :=
      if res.result then
        let (m1, removed) := remove_symlink res.previousTrack cfg.baseDir cfg.dryRun st.mirror
        (m1, [Ev.removeStale b (removeSymlinkPath cfg.baseDir res.previousTrack)],
         if removed && !cfg.dryRun then 1 else 0)
      else (st.mirror, [], 0)
    let (m2, t1, _created, replaced) := create_symlink t cfg.baseDir cfg.dryRun cfg.sanitizerLength m1
    let p := symlinkPathOf cfg.baseDir t cfg.sanitizerLength
    { mirror := m2
      doneTracks := st.doneTracks ++ [t1]
      counts :=
        { staleUnlinks := st.counts.staleUnlinks + stale
          replaceUnlinks := st.counts.replaceUnlinks + (if replaced then 1 else 0)
          created := st.counts.created + 1 }
      events :=
        st.events ++ ev1
          ++ (if replaced then [Ev.unlinkExisting b p] else [])
          ++ [Ev.createLink b p (resolvePath t.filepath)] }

/-- Result of running one batch. -/
structure BatchResult where
  db : Db
  mirror : Mirror
  counts : RunCounts
  events : List Ev
deriving DecidableEq, Repr

/-- One iteration of the batch loop: diff the batch against the database, run
the per-track loop, then bulk-upsert the (link-path-updated) batch. -/
def runBatch (cfg : Config) (db : Db) (m : Mirror) (b : Nat) (batch : List Track)
    (ok : Bool) : BatchResult :=
  let results := bulk_compare_with_db batch db
  let st := batch.foldl (processTrack cfg b results)
    ⟨m, [], ⟨0, 0, 0⟩, []⟩
  let (db1, _success) := update_tracks_in_db st.doneTracks db cfg.dryRun ok
  ⟨db1, st.mirror, st.counts, Ev.diffBatch b :: st.events ++ [Ev.upsertBatch b]⟩

/-- Componentwise sum of run counters. -/
def RunCounts.add (a c : RunCounts) : RunCounts :=
  ⟨a.staleUnlinks + c.staleUnlinks, a.replaceUnlinks + c.replaceUnlinks,
   a.created + c.created⟩

/-- The batch loop over the chunked track list, starting at batch index `b`;
`okOf` tells for each batch index whether its bulk upsert succeeds. -/
def runBatches (cfg : Config) (okOf : Nat → Bool) :
    Nat → Db → Mirror → List (List Track) → BatchResult
  | _, db, m, [] => ⟨db, m, ⟨0, 0, 0⟩, []⟩
  | b, db, m, batch :: rest =>
    let r1 := runBatch cfg db m b batch (okOf b)
    let r2 := runBatches cfg okOf (b + 1) r1.db r1.mirror rest
    ⟨r2.db, r2.mirror, r1.counts.add r2.counts, r1.events ++ r2.events⟩

/-- Result of a full `main` run. -/
structure MainResult where
  dbFile : Option Db
  mirror : Mirror
  counts : RunCounts
  sweepPreRemoved : Nat
  sweepPostRemoved : Nat
  events : List Ev
deriving DecidableEq, Repr

/-- `main` on the link-map view of the mirror: open/create the database,
sweep, run the batch loop, sweep again.  `sourceExists` tells which source
paths exist on disk (the source tree, for dangling-link detection);
`dbFile` is the state of the backing database file. -/
def runMain (cfg : Config) (sourceExists : FsPath → Bool) (tracks : List Track)
    (dbFile : Option Db) (m0 : Mirror) (okOf : Nat → Bool) : MainResult :=
  let (db0, _dbFile1) := establish_db_connection dbFile
  let (m1, pre) := sweepLinks cfg.dryRun sourceExists m0
  let r := runBatches cfg okOf 0 db0 m1 (chunked tracks cfg.batchSize)
  let (m2, post) := sweepLinks cfg.dryRun sourceExists r.mirror
  { dbFile := some r.db
    mirror := m2
    counts := r.counts
    sweepPreRemoved := pre
    sweepPostRemoved := post
    events := Ev.connectDb :: Ev.sweepPre :: r.events ++ [Ev.sweepPost] }

/-! ## Concrete example values used by witnesses and counterexamples -/

/-- A concrete track as the identity resolver produces it. -/
def exTrack : Track where
  filepath := ["music", "01 - Hells Bells.flac"]
  filename := "01 - Hells Bells.flac"
  metadata_hash := "mh1"
  symlink_path := []
  artist_album := "AC/DC"
  album := "Back In Black"
  title := "Hells Bells"
  audio_md5 := "0xdeadbeef"
  track_number := "1"
  safe_filename := true

/-- The same audio content after a rename of the source file. -/
def exTrackRenamed : Track :=
  { exTrack with filename := "Hells Bells.flac" }

/-- A stored index row for the same identity with an older version key. -/
def exRowOld : DbRow where
  audio_md5 := "0xdeadbeef"
  metadata_hash := "mh0"
  artist := "AC/DC"
  album := "Back In Black (Remaster)"
  title := "Hells Bells "
  filepath := ["music", "old name.flac"]
  symlink_path := ["mnt", "ACDC", "Back In Black (Remaster)", "Hells Bells -0xde.flac"]

/-- The previous record a Changed diff carries: the current track overwritten
with the stored row's fields. -/
def exPrev : Track := reconstructTrack exTrack exRowOld

/-- The previous record's derived link location per the spec:
`mirror_root/sanitize(prev.artist)/sanitize(prev.album)/prev.link_filename`. -/
def exSpecLinkPath : FsPath :=
  ["mnt"] ++ [sanitizeStr exPrev.artist_album 50, sanitizeStr exPrev.album 50,
              get_safe_symlink_name exPrev 50]

/-- A mirror tree holding exactly the previous record's stale link, at the
location where `create_symlink` put it. -/
def exStaleMirror : Mirror := [(exSpecLinkPath, resolvePath exPrev.filepath)]

/-- The loop state at the start of a batch. -/
def exBatchState0 : BatchState := ⟨[], [], ⟨0, 0, 0⟩, []⟩

/-- A track as it looks after `create_symlink` recorded its link path on it —
the shape in which the batch loop hands it to the bulk upsert. -/
def relinked (cfg : Config) (t : Track) : Track :=
  { t with symlink_path := symlinkPathOf cfg.baseDir t cfg.sanitizerLength }

/-- Two successive full runs on an unchanged source tree: the second run is
given the mirror tree and index file the first run produced. -/
def runTwice (cfg : Config) (src : FsPath → Bool) (tracks : List Track)
    (rows0 : Db) (m0 : Mirror) : MainResult :=
  runMain cfg src tracks
    (runMain cfg src tracks (some rows0) m0 (fun _ => true)).dbFile
    (runMain cfg src tracks (some rows0) m0 (fun _ => true)).mirror
    (fun _ => true)

/-- A stored index row equal to what upserting `exTrack` would write. -/
def exRowSame : DbRow :=
  { exRowOld with
    metadata_hash := "mh1"
    artist := "AC/DC"
    album := "Back In Black"
    title := "Hells Bells" }

/-- A concrete run configuration (real run). -/
def exCfg : Config := ⟨["mnt"], 500, 50, false⟩

/-- The same configuration in simulate-only mode. -/
def exCfgDry : Config := ⟨["mnt"], 500, 50, true⟩

/-- A source tree on which every path exists. -/
def exSrc : FsPath → Bool := fun _ => true

/-! ## Lemmas about `sanitize_for_path` -/

lemma mem_flushRun {c : Char} {run : List Char} (h : c ∈ flushRun run) :
    c ∈ run ∨ c = ' ' := by
  unfold flushRun at h
  split at h
  · right; simpa using h
  · left; exact h

lemma chain'_flushRun {R : Char → Char → Prop} (run : List Char) :
    List.Chain' R (flushRun run) := by
  unfold flushRun
  split
  · simp
  next h =>
    match run, h with
    | [], _ => simp
    | [c], _ => simp
    | a :: b :: t, h => exact absurd (by simp only [List.length_cons]; omega) h

lemma mem_collapseWsGo {c : Char} :
    ∀ (l run : List Char), c ∈ collapseWsGo run l → c ∈ run ∨ c ∈ l ∨ c = ' ' := by
  intro l
  induction l with
  | nil =>
    intro run h
    rcases mem_flushRun (by simpa [collapseWsGo] using h) with h2 | h2
    · exact Or.inl h2
    · exact Or.inr (Or.inr h2)
  | cons d rest ih =>
    intro run h
    rw [collapseWsGo] at h
    by_cases hd : isPySpace d
    · rw [if_pos hd] at h
      rcases ih (run ++ [d]) h with h2 | h2 | h2
      · rcases List.mem_append.mp h2 with h3 | h3
        · exact Or.inl h3
        · exact Or.inr (Or.inl (by simpa using Or.inl (by simpa using h3)))
      · exact Or.inr (Or.inl (List.mem_cons_of_mem _ h2))
      · exact Or.inr (Or.inr h2)
    · rw [if_neg hd] at h
      rcases List.mem_append.mp h with h2 | h2
      · rcases mem_flushRun h2 with h3 | h3
        · exact Or.inl h3
        · exact Or.inr (Or.inr h3)
      · rcases List.mem_cons.mp h2 with h3 | h3
        · exact Or.inr (Or.inl (by simp [h3]))
        · rcases ih [] h3 with h4 | h4 | h4
          · exact absurd h4 (List.not_mem_nil c)
          · exact Or.inr (Or.inl (List.mem_cons_of_mem _ h4))
          · exact Or.inr (Or.inr h4)

lemma mem_collapseWs {c : Char} {l : List Char} (h : c ∈ collapseWs l) : c ∈ l ∨ c = ' ' := by
  rcases mem_collapseWsGo l [] h with h2 | h2 | h2
  · exact absurd h2 (List.not_mem_nil c)
  · exact Or.inl h2
  · exact Or.inr h2

lemma chain'_collapseWsGo :
    ∀ (l run : List Char),
      List.Chain' (fun a b => ¬(isPySpace a = true ∧ isPySpace b = true))
        (collapseWsGo run l) := by
  intro l
  induction l with
  | nil =>
    intro run
    rw [collapseWsGo]
    exact chain'_flushRun run
  | cons d rest ih =>
    intro run
    rw [collapseWsGo]
    by_cases hd : isPySpace d
    · rw [if_pos hd]
      exact ih (run ++ [d])
    · rw [if_neg hd]
      rw [List.chain'_append]
      refine ⟨chain'_flushRun run, ?_, ?_⟩
      · rw [List.chain'_cons']
        refine ⟨fun y _ hcon => hd hcon.1, ih []⟩
      · intro x _ y hy
        simp only [List.head?_cons, Option.mem_def, Option.some.injEq] at hy
        subst hy
        exact fun hcon => hd hcon.2

lemma chain'_collapseWs (l : List Char) :
    List.Chain' (fun a b => ¬(isPySpace a = true ∧ isPySpace b = true)) (collapseWs l) :=
  chain'_collapseWsGo l []

lemma chain'_of_take {R : α → α → Prop} {l : List α} (h : List.Chain' R l) (n : Nat) :
    List.Chain' R (l.take n) := by
  have h2 : List.Chain' R (l.take n ++ l.drop n) := by
    rw [List.take_append_drop]; exact h
  exact h2.left_of_append

lemma chain'_of_dropWhile {R : α → α → Prop} {l : List α} (h : List.Chain' R l) (p : α → Bool) :
    List.Chain' R (l.dropWhile p) := by
  have h2 : List.Chain' R (l.takeWhile p ++ l.dropWhile p) := by
    rw [List.takeWhile_append_dropWhile]; exact h
  exact h2.right_of_append

lemma chain'_of_reverse {R : α → α → Prop} (hsym : ∀ a b, R a b → R b a) {l : List α}
    (h : List.Chain' R l) : List.Chain' R l.reverse :=
  List.chain'_reverse.mpr (h.imp hsym)

lemma chain'_rstripSpaces {R : Char → Char → Prop} (hsym : ∀ a b, R a b → R b a)
    {l : List Char} (h : List.Chain' R l) : List.Chain' R (rstripSpaces l) :=
  chain'_of_reverse hsym (chain'_of_dropWhile (chain'_of_reverse hsym h) _)

lemma mem_rstripSpaces {l : List Char} {c : Char} (h : c ∈ rstripSpaces l) : c ∈ l := by
  unfold rstripSpaces at h
  rw [List.mem_reverse] at h
  exact List.mem_reverse.mp ((List.dropWhile_sublist _).mem h)

lemma mem_lstripSpaces {l : List Char} {c : Char} (h : c ∈ lstripSpaces l) : c ∈ l :=
  (List.dropWhile_sublist _).mem h

lemma mem_sanitize {s : List Char} {n : Nat} {c : Char} (h : c ∈ sanitize_for_path s n) :
    c ∈ collapseWs (s.filter (fun c => !illegalChar c)) := by
  unfold sanitize_for_path at h
  simp only at h
  split at h
  · split at h
    · exact mem_lstripSpaces
        (mem_rstripSpaces ((List.take_sublist _ _).mem ((List.take_sublist _ _).mem h)))
    · exact mem_lstripSpaces (mem_rstripSpaces ((List.take_sublist _ _).mem h))
  · exact mem_lstripSpaces (mem_rstripSpaces h)

lemma chain'_sanitize (s : List Char) (n : Nat) :
    List.Chain' (fun a b => ¬(isPySpace a = true ∧ isPySpace b = true))
      (sanitize_for_path s n) := by
  have hsym : ∀ a b : Char, (¬(isPySpace a = true ∧ isPySpace b = true)) →
      (¬(isPySpace b = true ∧ isPySpace a = true)) := fun a b h hc => h ⟨hc.2, hc.1⟩
  have base := chain'_collapseWs (s.filter (fun c => !illegalChar c))
  have h3 := chain'_rstripSpaces hsym (chain'_of_dropWhile base (fun c => c = ' '))
  unfold sanitize_for_path
  simp only
  split
  · split
    · exact chain'_of_take (chain'_of_take h3 _) _
    · exact chain'_of_take h3 _
  · exact h3

lemma length_sanitize_le (s : List Char) (n : Nat) :
    (sanitize_for_path s n).length ≤ n := by
  unfold sanitize_for_path
  simp only
  split
  next h =>
    split
    · simp only [List.length_take]
      omega
    · simp only [List.length_take]
      omega
  next h => omega

/-- C8: for every input string and every maximum length `L`, the output of
`sanitize_for_path` contains none of the reserved path characters
`\ / : * ? " < > |`, contains no two consecutive whitespace characters, and
has length at most `L`. -/
theorem claim_c8_sanitization (s : List Char) (L : Nat) :
    (∀ c ∈ sanitize_for_path s L, illegalChar c = false) ∧
    List.Chain' (fun a b => ¬(isPySpace a = true ∧ isPySpace b = true))
      (sanitize_for_path s L) ∧
    (sanitize_for_path s L).length ≤ L := by
  refine ⟨?_, chain'_sanitize s L, length_sanitize_le s L⟩
  intro c hc
  rcases mem_collapseWs (mem_sanitize hc) with h | h
  · have := List.of_mem_filter h
    simpa using this
  · subst h
    rfl

/-! ## C7: version key composition -/

/-- C7: the version key (`metadata_hash`) is a checksum over exactly
filename, artist, album, title and identity key: tracks agreeing on those five
fields get equal version keys; changing the filename alone changes the checksum
input; changing `track_number` alone leaves the checksum input unchanged. -/
theorem claim_c7_version_key (h : List Char → String) (t u : Track) (n : String) :
    (t.filename = u.filename → t.artist_album = u.artist_album → t.album = u.album →
      t.title = u.title → t.audio_md5 = u.audio_md5 →
      computeMetadataHash h t = computeMetadataHash h u) ∧
    (t.artist_album = u.artist_album → t.album = u.album → t.title = u.title →
      t.audio_md5 = u.audio_md5 → t.filename ≠ u.filename →
      metadataHashInput t ≠ metadataHashInput u) ∧
    metadataHashInput { t with track_number := n } = metadataHashInput t := by
  refine ⟨?_, ?_, rfl⟩
  · intro h1 h2 h3 h4 h5
    unfold computeMetadataHash metadataHashInput
    rw [h1, h2, h3, h4, h5]
  · intro h1 h2 h3 h4 hne heq
    unfold metadataHashInput at heq
    rw [h1, h2, h3, h4] at heq
    simp only [List.append_assoc] at heq
    exact hne (String.ext (List.append_cancel_right heq))

/-- Witness for C7 at concrete tracks: a rename alone changes the checksum
input, and a `track_number` change alone does not. -/
theorem claim_c7_version_key_witness :
    metadataHashInput exTrack ≠ metadataHashInput exTrackRenamed ∧
    metadataHashInput { exTrack with track_number := "7" } = metadataHashInput exTrack := by
  have h := claim_c7_version_key (fun l => String.mk l) exTrack exTrackRenamed "7"
  exact ⟨h.2.1 rfl rfl rfl rfl (by decide), h.2.2⟩

/-! ## C6: sweep correctness -/

lemma sweepEntries_nil : sweepEntries [] = ([], 0, 0) := by
  rw [sweepEntries]

lemma sweepEntries_cons_file (n : String) (rest : List FsEntry) :
    sweepEntries (.file n :: rest) =
      (.file n :: (sweepEntries rest).1, (sweepEntries rest).2.1, (sweepEntries rest).2.2) := by
  rw [sweepEntries]

lemma sweepEntries_cons_link (n : String) (d : Bool) (rest : List FsEntry) :
    sweepEntries (.link n d :: rest) =
      (if d then ((sweepEntries rest).1, (sweepEntries rest).2.1 + 1, (sweepEntries rest).2.2)
       else (.link n d :: (sweepEntries rest).1, (sweepEntries rest).2.1, (sweepEntries rest).2.2)) := by
  rw [sweepEntries]

lemma sweepEntries_cons_dir (n : String) (cs rest : List FsEntry) :
    sweepEntries (.dir n cs :: rest) =
      (if (sweepEntries cs).1.isEmpty then
        ((sweepEntries rest).1, (sweepEntries cs).2.1 + (sweepEntries rest).2.1,
         (sweepEntries cs).2.2 + (sweepEntries rest).2.2 + 1)
       else
        (.dir n (sweepEntries cs).1 :: (sweepEntries rest).1,
         (sweepEntries cs).2.1 + (sweepEntries rest).2.1,
         (sweepEntries cs).2.2 + (sweepEntries rest).2.2)) := by
  rw [sweepEntries]

lemma sweepEntries_spec_aux : ∀ (k : Nat) (cs : List FsEntry), entriesSize cs ≤ k →
    (sweepEntries cs).2.1 = danglingCount cs ∧
    dirCount cs = dirCount (sweepEntries cs).1 + (sweepEntries cs).2.2 ∧
    cleanEntries (sweepEntries cs).1 = true := by
  intro k
  induction k with
  | zero =>
    intro cs hcs
    cases cs with
    | nil => simp [sweepEntries_nil, danglingCount, dirCount, cleanEntries]
    | cons e rest =>
      exfalso
      cases e <;> simp [entriesSize] at hcs
  | succ k ih =>
    intro cs hcs
    cases cs with
    | nil => simp [sweepEntries_nil, danglingCount, dirCount, cleanEntries]
    | cons e rest =>
      cases e with
      | file n =>
        obtain ⟨h1, h2, h3⟩ := ih rest (by simp [entriesSize] at hcs; omega)
        rw [sweepEntries_cons_file, danglingCount, dirCount]
        refine ⟨h1, ?_, ?_⟩
        · simp only [dirCount]
          omega
        · simpa [cleanEntries] using h3
      | link n d =>
        obtain ⟨h1, h2, h3⟩ := ih rest (by simp [entriesSize] at hcs; omega)
        rw [sweepEntries_cons_link, danglingCount]
        cases d with
        | false =>
          simp only [Bool.false_eq_true, if_false]
          refine ⟨?_, ?_, ?_⟩
          · simpa using h1
          · simp only [dirCount]
            omega
          · simpa [cleanEntries] using h3
        | true =>
          simp only [if_true]
          refine ⟨?_, ?_, h3⟩
          · simp only [h1]
            omega
          · simp only [dirCount]
            omega
      | dir n cs1 =>
        obtain ⟨hc1, hc2, hc3⟩ := ih cs1 (by simp [entriesSize] at hcs; omega)
        obtain ⟨h1, h2, h3⟩ := ih rest (by simp [entriesSize] at hcs; omega)
        rw [sweepEntries_cons_dir, danglingCount]
        cases hemp : (sweepEntries cs1).1.isEmpty with
        | true =>
          simp only [hemp, if_true]
          refine ⟨?_, ?_, h3⟩
          · simp only [hc1, h1]
          · have hdc : dirCount (sweepEntries cs1).1 = 0 := by
              rw [List.isEmpty_iff] at hemp
              rw [hemp, dirCount]
            simp only [dirCount]
            omega
        | false =>
          simp only [hemp, Bool.false_eq_true, if_false]
          refine ⟨?_, ?_, ?_⟩
          · simp only [hc1, h1]
          · simp only [dirCount]
            omega
          · simp only [cleanEntries, Bool.and_eq_true, Bool.not_eq_true']
            exact ⟨⟨hemp, hc3⟩, h3⟩


lemma sweepEntries_of_clean_aux : ∀ (k : Nat) (cs : List FsEntry), entriesSize cs ≤ k →
    cleanEntries cs = true → sweepEntries cs = (cs, 0, 0) := by
  intro k
  induction k with
  | zero =>
    intro cs hcs _
    cases cs with
    | nil => exact sweepEntries_nil
    | cons e rest =>
      exfalso
      cases e <;> simp [entriesSize] at hcs
  | succ k ih =>
    intro cs hcs hclean
    cases cs with
    | nil => exact sweepEntries_nil
    | cons e rest =>
      cases e with
      | file n =>
        rw [cleanEntries] at hclean
        have hr := ih rest (by simp [entriesSize] at hcs; omega) hclean
        rw [sweepEntries_cons_file, hr]
      | link n d =>
        rw [cleanEntries] at hclean
        simp only [Bool.and_eq_true, Bool.not_eq_true'] at hclean
        have hr := ih rest (by simp [entriesSize] at hcs; omega) hclean.2
        rw [sweepEntries_cons_link, hr, hclean.1]
        simp
      | dir n cs1 =>
        rw [cleanEntries] at hclean
        simp only [Bool.and_eq_true, Bool.not_eq_true'] at hclean
        have hc := ih cs1 (by simp [entriesSize] at hcs; omega) hclean.1.2
        have hr := ih rest (by simp [entriesSize] at hcs; omega) hclean.2
        rw [sweepEntries_cons_dir, hc, hr]
        simp [hclean.1.1]

/-- C6: one bottom-up sweep (children strictly before parents, by the shape of
the recursion) removes exactly the `danglingCount cs` broken links and exactly
`dirCount cs - dirCount result` directories; the result is clean — no dangling
link and no empty directory remains anywhere — and the sweep is a fixed point:
sweeping the result removes zero links and zero directories. -/
theorem claim_c6_sweep (cs : List FsEntry) :
    (sweepEntries cs).2.1 = danglingCount cs ∧
    dirCount cs = dirCount (sweepEntries cs).1 + (sweepEntries cs).2.2 ∧
    cleanEntries (sweepEntries cs).1 = true ∧
    sweepEntries (sweepEntries cs).1 = ((sweepEntries cs).1, 0, 0) := by
  obtain ⟨h1, h2, h3⟩ := sweepEntries_spec_aux (entriesSize cs) cs le_rfl
  exact ⟨h1, h2, h3, sweepEntries_of_clean_aux (entriesSize (sweepEntries cs).1) _ le_rfl h3⟩

/-! ## C1: diff classification -/

lemma dictFold_nowrite (keyOf : α → String) (valOf : α → Option β) (k : String) :
    ∀ (l : List α) (m : String → Option β),
      (∀ x ∈ l, keyOf x = k → valOf x = none) →
      (l.foldl (fun m x => match valOf x with
        | some v => dictInsert m (keyOf x) v
        | none => m) m) k = m k := by
  intro l
  induction l with
  | nil => intro m _; rfl
  | cons y ys ih =>
    intro m h
    rw [List.foldl_cons]
    rw [ih _ (fun x hx => h x (List.mem_cons_of_mem _ hx))]
    cases hv : valOf y with
    | none => rfl
    | some v =>
      show dictInsert m (keyOf y) v k = m k
      unfold dictInsert
      by_cases hk : keyOf y = k
      · exact absurd hv (by rw [h y (List.mem_cons_self _ _) hk]; simp)
      · rw [if_neg (fun hc => hk hc.symm)]

lemma dictFold_write (keyOf : α → String) (valOf : α → Option β) (k : String) (v : β) :
    ∀ (l : List α) (m : String → Option β) (x : α),
      x ∈ l → keyOf x = k → valOf x = some v → (l.map keyOf).Nodup →
      (l.foldl (fun m x => match valOf x with
        | some v => dictInsert m (keyOf x) v
        | none => m) m) k = some v := by
  intro l
  induction l with
  | nil => intro m x hx; exact absurd hx (List.not_mem_nil x)
  | cons y ys ih =>
    intro m x hx hk hv hN
    rw [List.map_cons, List.nodup_cons] at hN
    rcases List.mem_cons.mp hx with h | h
    · subst h
      rw [List.foldl_cons, hv]
      show (ys.foldl _ (dictInsert m (keyOf x) v)) k = some v
      rw [dictFold_nowrite]
      · unfold dictInsert
        rw [if_pos hk.symm]
      · intro z hz hzk
        exfalso
        exact hN.1 (hzk.trans hk.symm ▸ List.mem_map_of_mem keyOf hz)
    · exact ih _ x h hk hv hN.2

lemma dictOfList_lookup_none (keyOf : α → String) (valOf : α → Option β) (l : List α)
    (k : String) (h : ∀ x ∈ l, keyOf x = k → valOf x = none) :
    dictOfList keyOf valOf l k = none :=
  dictFold_nowrite keyOf valOf k l _ h

lemma dictOfList_lookup_some (keyOf : α → String) (valOf : α → Option β) (l : List α)
    (k : String) (v : β) (x : α) (hx : x ∈ l) (hk : keyOf x = k) (hv : valOf x = some v)
    (hN : (l.map keyOf).Nodup) :
    dictOfList keyOf valOf l k = some v :=
  dictFold_write keyOf valOf k v l _ x hx hk hv hN


lemma mem_hashesOf {tracks : List Track} {t : Track} (ht : t ∈ tracks)
    (hne : t.audio_md5 ≠ "") : t.audio_md5 ∈ hashesOf tracks := by
  unfold hashesOf
  exact List.mem_map_of_mem _ (List.mem_filter.mpr ⟨ht, by simpa using hne⟩)

lemma trackMapOf_lookup {tracks : List Track} {t : Track}
    (hN : (tracks.map (fun t => t.audio_md5)).Nodup) (ht : t ∈ tracks)
    (hne : t.audio_md5 ≠ "") : trackMapOf tracks t.audio_md5 = some t := by
  unfold trackMapOf
  exact dictOfList_lookup_some _ _ _ _ _ t ht rfl (by simp [hne]) hN

lemma dbLookupOf_none {tracks : List Track} {db : Db} {k : String}
    (hrow : rowLookup db k = none) : dbLookupOf tracks db k = none := by
  unfold dbLookupOf
  refine dictOfList_lookup_none _ _ _ _ ?_
  intro r hr hk
  exfalso
  rw [rowLookup, List.find?_eq_none] at hrow
  exact hrow r (List.mem_of_mem_filter hr) (by simp [hk])

lemma dbLookupOf_some {tracks : List Track} {db : Db} {t : Track} {r : DbRow}
    (hDb : (db.map (fun r => r.audio_md5)).Nodup)
    (hN : (tracks.map (fun t => t.audio_md5)).Nodup)
    (ht : t ∈ tracks) (hne : t.audio_md5 ≠ "")
    (hrow : rowLookup db t.audio_md5 = some r) :
    dbLookupOf tracks db t.audio_md5 = some (reconstructTrack t r) := by
  have hmem : r ∈ db := List.mem_of_find?_eq_some hrow
  have hkey : r.audio_md5 = t.audio_md5 := by
    have := List.find?_some hrow
    simpa using this
  unfold dbLookupOf
  refine dictOfList_lookup_some _ _ _ _ _ r ?_ hkey ?_ ?_
  · refine List.mem_filter.mpr ⟨hmem, ?_⟩
    have : t.audio_md5 ∈ hashesOf tracks := mem_hashesOf ht hne
    rw [hkey]
    exact List.elem_iff.mpr this
  · rw [hkey, trackMapOf_lookup hN ht hne]
    rfl
  · exact ((List.filter_sublist db).map (fun r => r.audio_md5)).nodup hDb
    

lemma bulk_compare_lookup {tracks : List Track} {db : Db} {t : Track}
    (hN : (tracks.map (fun u => u.audio_md5)).Nodup)
    (ht : t ∈ tracks) (hne : t.audio_md5 ≠ "") :
    bulk_compare_with_db tracks db t.audio_md5 =
      some (match dbLookupOf tracks db t.audio_md5 with
            | some prev => ⟨compare_tracks t prev, prev⟩
            | none => ⟨true, t⟩) := by
  unfold bulk_compare_with_db
  rw [if_neg (List.ne_nil_of_mem (mem_hashesOf ht hne))]
  refine dictOfList_lookup_some _ _ _ _ _ t ht rfl ?_ hN
  simp only [if_neg hne]
  cases dbLookupOf tracks db t.audio_md5 <;> rfl

/-- C1: the diff maps each track's identity key to a result whose flag is
false exactly when a prior index entry with an equal version key exists, true
when there is no prior entry or the version key differs; when a prior entry
exists the carried previous record holds the entry's stored artist, album,
title, source path, link path and version key. -/
theorem claim_c1_diff_classification (tracks : List Track) (db : Db) (t : Track)
    (hkeys : ∀ u ∈ tracks, u.audio_md5 ≠ "")
    (hN : (tracks.map (fun u => u.audio_md5)).Nodup)
    (hDb : (db.map (fun r => r.audio_md5)).Nodup)
    (ht : t ∈ tracks) :
    ∃ res : DiffResult, bulk_compare_with_db tracks db t.audio_md5 = some res ∧
      (rowLookup db t.audio_md5 = none → res.result = true) ∧
      (∀ r : DbRow, rowLookup db t.audio_md5 = some r →
        ((res.result = false ↔ r.metadata_hash = t.metadata_hash) ∧
         res.previousTrack.artist_album = r.artist ∧
         res.previousTrack.album = r.album ∧
         res.previousTrack.title = r.title ∧
         res.previousTrack.filepath = r.filepath ∧
         res.previousTrack.symlink_path = r.symlink_path ∧
         res.previousTrack.metadata_hash = r.metadata_hash)) := by
  have hne := hkeys t ht
  cases hrow : rowLookup db t.audio_md5 with
  | none =>
    refine ⟨⟨true, t⟩, ?_, fun _ => rfl, fun r hr => Option.noConfusion hr⟩
    rw [bulk_compare_lookup hN ht hne, dbLookupOf_none hrow]
  | some r =>
    refine ⟨⟨compare_tracks t (reconstructTrack t r), reconstructTrack t r⟩, ?_, ?_, ?_⟩
    · rw [bulk_compare_lookup hN ht hne, dbLookupOf_some hDb hN ht hne hrow]
    · intro hc
      exact Option.noConfusion hc
    · intro r2 hr2
      have heq : r2 = r := (Option.some.inj hr2).symm
      subst heq
      refine ⟨?_, rfl, rfl, rfl, rfl, rfl, rfl⟩
      show (t.metadata_hash != r2.metadata_hash) = false ↔ r2.metadata_hash = t.metadata_hash
      rw [bne_eq_false_iff_eq]
      exact ⟨fun h => h.symm, fun h => h.symm⟩

/-- Witness for C1 at a concrete batch and index: one track whose stored entry
has a differing version key. -/
theorem claim_c1_diff_classification_witness :
    ∃ res : DiffResult, bulk_compare_with_db [exTrack] [exRowOld] exTrack.audio_md5 = some res ∧
      (rowLookup [exRowOld] exTrack.audio_md5 = none → res.result = true) ∧
      (∀ r : DbRow, rowLookup [exRowOld] exTrack.audio_md5 = some r →
        ((res.result = false ↔ r.metadata_hash = exTrack.metadata_hash) ∧
         res.previousTrack.artist_album = r.artist ∧
         res.previousTrack.album = r.album ∧
         res.previousTrack.title = r.title ∧
         res.previousTrack.filepath = r.filepath ∧
         res.previousTrack.symlink_path = r.symlink_path ∧
         res.previousTrack.metadata_hash = r.metadata_hash)) :=
  claim_c1_diff_classification [exTrack] [exRowOld] exTrack
    (by decide) (by decide) (by decide) (by decide)

/-! ## C5: all-or-nothing bulk upsert -/

lemma rowLookup_upsertRow_self (db : Db) (r : DbRow) :
    rowLookup (upsertRow db r) r.audio_md5 = some r := by
  unfold upsertRow rowLookup
  by_cases hany : db.any (fun x => x.audio_md5 == r.audio_md5)
  · rw [if_pos hany]
    induction db with
    | nil => simp at hany
    | cons x xs ih =>
      rw [List.map_cons]
      by_cases hx : x.audio_md5 == r.audio_md5
      · rw [if_pos hx]
        rw [@List.find?_cons_of_pos _ (fun y => y.audio_md5 == r.audio_md5) r _ (by simp)]
      · rw [if_neg hx]
        rw [@List.find?_cons_of_neg _ (fun y => y.audio_md5 == r.audio_md5) x _ hx]
        refine ih ?_
        rw [List.any_cons] at hany
        simp only [hx, Bool.false_or] at hany
        exact hany
  · rw [if_neg hany]
    rw [List.find?_append]
    have hnone : db.find? (fun x => x.audio_md5 == r.audio_md5) = none := by
      rw [List.find?_eq_none]
      intro x hx hbe
      exact hany (List.any_eq_true.mpr ⟨x, hx, hbe⟩)
    rw [hnone, List.find?_singleton]
    simp

lemma rowLookup_upsertRow_other (db : Db) (r : DbRow) (k : String)
    (hk : k ≠ r.audio_md5) : rowLookup (upsertRow db r) k = rowLookup db k := by
  unfold upsertRow rowLookup
  by_cases hany : db.any (fun x => x.audio_md5 == r.audio_md5)
  · rw [if_pos hany]
    clear hany
    induction db with
    | nil => simp
    | cons x xs ih =>
      rw [List.map_cons]
      by_cases hx : x.audio_md5 == r.audio_md5
      · rw [if_pos hx]
        have hxk : ¬(x.audio_md5 == k) = true := by
          simp only [beq_iff_eq] at hx ⊢
          rw [hx]
          exact fun hc => hk hc.symm
        have hrk : ¬(r.audio_md5 == k) = true := by
          simp only [beq_iff_eq]
          exact fun hc => hk hc.symm
        rw [@List.find?_cons_of_neg _ (fun y => y.audio_md5 == k) r _ hrk,
          @List.find?_cons_of_neg _ (fun y => y.audio_md5 == k) x _ hxk]
        exact ih
      · rw [if_neg hx]
        by_cases hxk : (x.audio_md5 == k) = true
        · rw [@List.find?_cons_of_pos _ (fun y => y.audio_md5 == k) x _ hxk,
            @List.find?_cons_of_pos _ (fun y => y.audio_md5 == k) x _ hxk]
        · rw [@List.find?_cons_of_neg _ (fun y => y.audio_md5 == k) x _ hxk,
            @List.find?_cons_of_neg _ (fun y => y.audio_md5 == k) x _ hxk]
          exact ih
  · rw [if_neg hany]
    rw [List.find?_append, List.find?_singleton]
    have : ¬(r.audio_md5 == k) = true := by
      simp only [beq_iff_eq]
      exact fun hc => hk hc.symm
    rw [if_neg this]
    simp

lemma rowLookup_upsertRows_other (rs : List DbRow) :
    ∀ (db : Db) (k : String), (∀ y ∈ rs, y.audio_md5 ≠ k) →
    rowLookup (upsertRows db rs) k = rowLookup db k := by
  induction rs with
  | nil => intro db k _; rfl
  | cons y ys ih =>
    intro db k h
    unfold upsertRows
    rw [List.foldl_cons]
    have h1 := ih (upsertRow db y) k (fun z hz => h z (List.mem_cons_of_mem _ hz))
    unfold upsertRows at h1
    rw [h1]
    exact rowLookup_upsertRow_other db y k (fun hc => h y (List.mem_cons_self _ _) hc.symm)

lemma rowLookup_upsertRows_mem (rs : List DbRow) :
    ∀ (db : Db) (x : DbRow), x ∈ rs → (rs.map (fun r => r.audio_md5)).Nodup →
    rowLookup (upsertRows db rs) x.audio_md5 = some x := by
  induction rs with
  | nil => intro db x hx; exact absurd hx (List.not_mem_nil x)
  | cons y ys ih =>
    intro db x hx hN
    rw [List.map_cons, List.nodup_cons] at hN
    unfold upsertRows
    rw [List.foldl_cons]
    rcases List.mem_cons.mp hx with h | h
    · subst h
      have h1 := rowLookup_upsertRows_other ys (upsertRow db x) x.audio_md5
        (fun z hz hc => hN.1 (hc ▸ List.mem_map_of_mem _ hz))
      unfold upsertRows at h1
      rw [h1]
      exact rowLookup_upsertRow_self db x
    · exact ih (upsertRow db y) x h hN.2


/-- C5: outside dry-run, `update_tracks_in_db` returns the success of the bulk
write to its caller; on success every record of the batch is persisted under
its identity key, and on failure the table is unchanged. -/
theorem claim_c5_upsert_atomic (tracks : List Track) (db : Db) (ok : Bool)
    (hN : (tracks.map (fun t => t.audio_md5)).Nodup) :
    (update_tracks_in_db tracks db false ok).2 = ok ∧
    (ok = true → ∀ t ∈ tracks,
      rowLookup (update_tracks_in_db tracks db false ok).1 t.audio_md5 = some t.toRow) ∧
    (ok = false → (update_tracks_in_db tracks db false ok).1 = db) := by
  unfold update_tracks_in_db
  cases ok with
  | false => exact ⟨rfl, fun hc => Bool.noConfusion hc, fun _ => rfl⟩
  | true =>
    refine ⟨rfl, fun _ t ht => ?_, fun hc => Bool.noConfusion hc⟩
    simp only [if_true, Bool.true_eq_false, if_false]
    have hkeys : ((tracks.map Track.toRow).map (fun r => r.audio_md5)).Nodup := by
      rw [List.map_map]
      exact hN
    exact rowLookup_upsertRows_mem (tracks.map Track.toRow) db t.toRow
      (List.mem_map_of_mem _ ht) hkeys

/-- Witness for C5: a successful and a failed bulk upsert of a concrete batch. -/
theorem claim_c5_upsert_atomic_witness :
    ((update_tracks_in_db [exTrack] [exRowOld] false true).2 = true ∧
      (true = true → ∀ t ∈ [exTrack],
        rowLookup (update_tracks_in_db [exTrack] [exRowOld] false true).1 t.audio_md5 =
          some t.toRow) ∧
      (true = false → (update_tracks_in_db [exTrack] [exRowOld] false true).1 = [exRowOld])) ∧
    (update_tracks_in_db [exTrack] [exRowOld] false false).1 = [exRowOld] :=
  ⟨claim_c5_upsert_atomic [exTrack] [exRowOld] true (by decide),
   (claim_c5_upsert_atomic [exTrack] [exRowOld] false (by decide)).2.2 rfl⟩

/-! ## C3: stale-link removal for Changed tracks -/

/-- C3 (code bug): at a concrete Changed track's previous record, the removal
path `remove_symlink` derives (unsanitized artist/album and the stored source
file's basename) differs from the previous record's derived link location
`mirror_root/sanitize(prev.artist)/sanitize(prev.album)/prev.link_filename`,
so on a mirror holding the stale link at its actual location the removal finds
nothing, returns `false` and leaves the stale link in place.  (The other half
of the claim does hold: a missing link is reported with `false`, not an
error.) -/
theorem claim_c3_stale_removal_bug :
    removeSymlinkPath ["mnt"] exPrev ≠ exSpecLinkPath ∧
    remove_symlink exPrev ["mnt"] false exStaleMirror = (exStaleMirror, false) := by
  constructor
  · decide
  · decide

/-! ## C10: New tracks carry themselves as previous record -/

/-- C10: a track with no prior index entry gets diff result
`{result := true, previousTrack := itself}`, and the per-track loop body then
invokes the link removal at
`mirror_root/artist/album/basename(source_path)` — the current track's own
unsanitized fields — before invoking the link creation. -/
theorem claim_c10_new_track_removal (tracks : List Track) (db : Db) (cfg : Config)
    (b : Nat) (st : BatchState) (t : Track)
    (hkeys : ∀ u ∈ tracks, u.audio_md5 ≠ "")
    (hN : (tracks.map (fun u => u.audio_md5)).Nodup)
    (ht : t ∈ tracks)
    (hnew : rowLookup db t.audio_md5 = none) :
    bulk_compare_with_db tracks db t.audio_md5 = some ⟨true, t⟩ ∧
    removeSymlinkPath cfg.baseDir t =
      cfg.baseDir ++ [t.artist_album, t.album, pathName t.filepath] ∧
    ∃ mid, (processTrack cfg b (bulk_compare_with_db tracks db) st t).events =
      st.events ++ [Ev.removeStale b (removeSymlinkPath cfg.baseDir t)] ++ mid ++
        [Ev.createLink b (symlinkPathOf cfg.baseDir t cfg.sanitizerLength)
          (resolvePath t.filepath)] := by
  have hlook : bulk_compare_with_db tracks db t.audio_md5 = some ⟨true, t⟩ := by
    rw [bulk_compare_lookup hN ht (hkeys t ht), dbLookupOf_none hnew]
  refine ⟨hlook, rfl, ?_⟩
  unfold processTrack
  rw [hlook]
  refine ⟨(if (create_symlink t cfg.baseDir cfg.dryRun cfg.sanitizerLength
        (remove_symlink t cfg.baseDir cfg.dryRun st.mirror).1).2.2.2 = true then
      [Ev.unlinkExisting b (symlinkPathOf cfg.baseDir t cfg.sanitizerLength)]
    else []), ?_⟩
  simp [List.append_assoc]

/-- Witness for C10: a concrete New track in a batch of one against an empty
index. -/
theorem claim_c10_new_track_removal_witness :
    bulk_compare_with_db [exTrack] [] exTrack.audio_md5 = some ⟨true, exTrack⟩ ∧
    removeSymlinkPath exCfg.baseDir exTrack =
      exCfg.baseDir ++ [exTrack.artist_album, exTrack.album, pathName exTrack.filepath] ∧
    ∃ mid, (processTrack exCfg 0 (bulk_compare_with_db [exTrack] []) exBatchState0
        exTrack).events =
      exBatchState0.events ++ [Ev.removeStale 0 (removeSymlinkPath exCfg.baseDir exTrack)] ++
        mid ++
        [Ev.createLink 0 (symlinkPathOf exCfg.baseDir exTrack exCfg.sanitizerLength)
          (resolvePath exTrack.filepath)] :=
  claim_c10_new_track_removal [exTrack] [] exCfg 0 exBatchState0 exTrack
    (by decide) (by decide) (by decide) (by decide)

/-! ## C9: simulate-only mode -/

lemma processTrack_dry (cfg : Config) (hdry : cfg.dryRun = true) (b : Nat)
    (results : String → Option DiffResult) (st : BatchState) (t : Track) :
    (processTrack cfg b results st t).mirror = st.mirror := by
  unfold processTrack create_symlink remove_symlink
  rw [hdry]
  cases results t.audio_md5 with
  | none => rfl
  | some res =>
    by_cases hres : res.result = true <;> simp [hres] <;> split <;> rfl

lemma foldl_processTrack_dry (cfg : Config) (hdry : cfg.dryRun = true) (b : Nat)
    (results : String → Option DiffResult) :
    ∀ (batch : List Track) (st : BatchState),
      (batch.foldl (processTrack cfg b results) st).mirror = st.mirror := by
  intro batch
  induction batch with
  | nil => intro st; rfl
  | cons t ts ih =>
    intro st
    rw [List.foldl_cons, ih]
    exact processTrack_dry cfg hdry b results st t

lemma runBatch_dry (cfg : Config) (hdry : cfg.dryRun = true) (db : Db) (m : Mirror)
    (b : Nat) (batch : List Track) (ok : Bool) :
    (runBatch cfg db m b batch ok).mirror = m ∧ (runBatch cfg db m b batch ok).db = db := by
  unfold runBatch update_tracks_in_db
  rw [hdry]
  exact ⟨foldl_processTrack_dry cfg hdry b _ batch _, rfl⟩

lemma runBatches_dry (cfg : Config) (hdry : cfg.dryRun = true) (okOf : Nat → Bool) :
    ∀ (bs : List (List Track)) (b : Nat) (db : Db) (m : Mirror),
      (runBatches cfg okOf b db m bs).mirror = m ∧ (runBatches cfg okOf b db m bs).db = db := by
  intro bs
  induction bs with
  | nil => intro b db m; exact ⟨rfl, rfl⟩
  | cons batch rest ih =>
    intro b db m
    unfold runBatches
    obtain ⟨h1, h2⟩ := runBatch_dry cfg hdry db m b batch (okOf b)
    obtain ⟨h3, h4⟩ := ih (b + 1) (runBatch cfg db m b batch (okOf b)).db
      (runBatch cfg db m b batch (okOf b)).mirror
    simp only
    rw [h3, h4, h1, h2]
    exact ⟨rfl, rfl⟩

/-- C9 (amended): in simulate-only mode the mirror tree is untouched and the
rows of the index are untouched — but opening the connection still creates the
backing database file (and its table) when absent, which the counterexample
below exhibits. -/
theorem claim_c9_dry_run_amended (cfg : Config) (hdry : cfg.dryRun = true)
    (src : FsPath → Bool) (tracks : List Track) (dbFile : Option Db) (m0 : Mirror)
    (okOf : Nat → Bool) :
    (runMain cfg src tracks dbFile m0 okOf).mirror = m0 ∧
    (runMain cfg src tracks dbFile m0 okOf).dbFile =
      some (establish_db_connection dbFile).1 ∧
    (∀ rows, dbFile = some rows →
      (runMain cfg src tracks dbFile m0 okOf).dbFile = some rows) := by
  unfold runMain sweepLinks
  rw [hdry]
  simp only [if_true]
  obtain ⟨h1, h2⟩ := runBatches_dry cfg hdry okOf
    (chunked tracks cfg.batchSize) 0 (establish_db_connection dbFile).1 m0
  refine ⟨h1, by rw [h2], ?_⟩
  intro rows hrows
  subst hrows
  rw [h2]
  rfl

/-- C9 counterexample: a dry run against an absent database file still creates
the backing file (with the empty `tracks` table), a mutation of the persistent
store. -/
theorem claim_c9_dry_run_counterexample :
    exCfgDry.dryRun = true ∧
    (runMain exCfgDry exSrc [exTrack] none [] (fun _ => true)).dbFile ≠ none := by
  exact ⟨rfl, by decide⟩

/-- Witness for the amended C9 at a concrete dry run over an existing index. -/
theorem claim_c9_dry_run_witness :
    (runMain exCfgDry exSrc [exTrack] (some [exRowOld]) [] (fun _ => true)).mirror = [] ∧
    (runMain exCfgDry exSrc [exTrack] (some [exRowOld]) [] (fun _ => true)).dbFile =
      some (establish_db_connection (some [exRowOld])).1 ∧
    (∀ rows, some [exRowOld] = some rows →
      (runMain exCfgDry exSrc [exTrack] (some [exRowOld]) [] (fun _ => true)).dbFile =
        some rows) :=
  claim_c9_dry_run_amended exCfgDry rfl exSrc [exTrack] (some [exRowOld]) []
    (fun _ => true)

/-! ## C4: batch ordering invariant -/

lemma linkAction_batchOf {e : Ev} {b : Nat} (h : e.isLinkActionOf b = true) :
    e.batchOf = some b := by
  cases e <;> simp [Ev.isLinkActionOf, Ev.batchOf] at h ⊢ <;> exact h

lemma processTrack_events (cfg : Config) (b : Nat) (results : String → Option DiffResult)
    (st : BatchState) (t : Track) :
    ∃ new, (processTrack cfg b results st t).events = st.events ++ new ∧
      ∀ e ∈ new, e.isLinkActionOf b = true := by
  unfold processTrack
  cases results t.audio_md5 with
  | none => exact ⟨[], by simp, by simp⟩
  | some res =>
    by_cases hres : res.result = true
    · by_cases hrep : (create_symlink t cfg.baseDir cfg.dryRun cfg.sanitizerLength
          (remove_symlink res.previousTrack cfg.baseDir cfg.dryRun st.mirror).1).2.2.2 = true
      · refine ⟨[Ev.removeStale b (removeSymlinkPath cfg.baseDir res.previousTrack),
          Ev.unlinkExisting b (symlinkPathOf cfg.baseDir t cfg.sanitizerLength),
          Ev.createLink b (symlinkPathOf cfg.baseDir t cfg.sanitizerLength)
            (resolvePath t.filepath)], ?_, ?_⟩
        · simp [hres, hrep, List.append_assoc]
        · intro e he
          simp only [List.mem_cons, List.not_mem_nil, or_false] at he
          rcases he with h | h | h <;> subst h <;> simp [Ev.isLinkActionOf]
      · refine ⟨[Ev.removeStale b (removeSymlinkPath cfg.baseDir res.previousTrack),
          Ev.createLink b (symlinkPathOf cfg.baseDir t cfg.sanitizerLength)
            (resolvePath t.filepath)], ?_, ?_⟩
        · simp [hres, hrep, List.append_assoc]
        · intro e he
          simp only [List.mem_cons, List.not_mem_nil, or_false] at he
          rcases he with h | h <;> subst h <;> simp [Ev.isLinkActionOf]
    · by_cases hrep : (create_symlink t cfg.baseDir cfg.dryRun cfg.sanitizerLength
          st.mirror).2.2.2 = true
      · refine ⟨[Ev.unlinkExisting b (symlinkPathOf cfg.baseDir t cfg.sanitizerLength),
          Ev.createLink b (symlinkPathOf cfg.baseDir t cfg.sanitizerLength)
            (resolvePath t.filepath)], ?_, ?_⟩
        · simp [hres, hrep, List.append_assoc]
        · intro e he
          simp only [List.mem_cons, List.not_mem_nil, or_false] at he
          rcases he with h | h <;> subst h <;> simp [Ev.isLinkActionOf]
      · refine ⟨[Ev.createLink b (symlinkPathOf cfg.baseDir t cfg.sanitizerLength)
            (resolvePath t.filepath)], ?_, ?_⟩
        · simp [hres, hrep, List.append_assoc]
        · intro e he
          simp only [List.mem_cons, List.not_mem_nil, or_false] at he
          subst he
          simp [Ev.isLinkActionOf]


lemma foldl_processTrack_events (cfg : Config) (b : Nat)
    (results : String → Option DiffResult) :
    ∀ (batch : List Track) (st : BatchState),
      ∃ new, (batch.foldl (processTrack cfg b results) st).events = st.events ++ new ∧
        ∀ e ∈ new, e.isLinkActionOf b = true := by
  intro batch
  induction batch with
  | nil => intro st; exact ⟨[], by simp, by simp⟩
  | cons t ts ih =>
    intro st
    rw [List.foldl_cons]
    obtain ⟨n1, h1, h1a⟩ := processTrack_events cfg b results st t
    obtain ⟨n2, h2, h2a⟩ := ih (processTrack cfg b results st t)
    refine ⟨n1 ++ n2, ?_, ?_⟩
    · rw [h2, h1, List.append_assoc]
    · intro e he
      rcases List.mem_append.mp he with h | h
      · exact h1a e h
      · exact h2a e h

lemma runBatch_events (cfg : Config) (db : Db) (m : Mirror) (b : Nat)
    (batch : List Track) (ok : Bool) :
    ∃ acts, (runBatch cfg db m b batch ok).events =
      Ev.diffBatch b :: acts ++ [Ev.upsertBatch b] ∧
      ∀ e ∈ acts, e.isLinkActionOf b = true := by
  unfold runBatch
  obtain ⟨new, h, ha⟩ := foldl_processTrack_events cfg b (bulk_compare_with_db batch db)
    batch ⟨m, [], ⟨0, 0, 0⟩, []⟩
  refine ⟨new, ?_, ha⟩
  simp only
  rw [h]
  simp

lemma runBatch_events_batchOf (cfg : Config) (db : Db) (m : Mirror) (b : Nat)
    (batch : List Track) (ok : Bool) :
    ∀ e ∈ (runBatch cfg db m b batch ok).events, e.batchOf = some b := by
  obtain ⟨acts, h, ha⟩ := runBatch_events cfg db m b batch ok
  rw [h]
  intro e he
  rcases List.mem_cons.mp he with h2 | h2
  · subst h2; rfl
  · rcases List.mem_append.mp h2 with h3 | h3
    · exact linkAction_batchOf (ha e h3)
    · rw [List.mem_singleton] at h3
      subst h3; rfl

lemma runBatches_batchOf_ge (cfg : Config) (okOf : Nat → Bool) :
    ∀ (bs : List (List Track)) (b0 : Nat) (db : Db) (m : Mirror),
      ∀ e ∈ (runBatches cfg okOf b0 db m bs).events, ∀ j, e.batchOf = some j → b0 ≤ j := by
  intro bs
  induction bs with
  | nil => intro b0 db m e he; exact absurd he (List.not_mem_nil e)
  | cons batch rest ih =>
    intro b0 db m e he j hj
    unfold runBatches at he
    simp only at he
    rcases List.mem_append.mp he with h | h
    · have := runBatch_events_batchOf cfg db m b0 batch (okOf b0) e h
      rw [this] at hj
      cases hj
      exact le_refl b0
    · have := ih (b0 + 1) _ _ e h j hj
      omega

lemma runBatches_events_decomp (cfg : Config) (okOf : Nat → Bool) :
    ∀ (bs : List (List Track)) (b0 : Nat) (db : Db) (m : Mirror) (i : Nat), i < bs.length →
      ∃ l1 l2 l3, (runBatches cfg okOf b0 db m bs).events =
        l1 ++ [Ev.diffBatch (b0 + i)] ++ l2 ++ [Ev.upsertBatch (b0 + i)] ++ l3 ∧
        (∀ e ∈ l2, e.isLinkActionOf (b0 + i) = true) ∧
        (∀ e ∈ l1, e.batchOf ≠ some (b0 + i)) ∧
        (∀ e ∈ l3, e.batchOf ≠ some (b0 + i)) := by
  intro bs
  induction bs with
  | nil => intro b0 db m i hi; exact absurd hi (by simp)
  | cons batch rest ih =>
    intro b0 db m i hi
    unfold runBatches
    simp only
    cases i with
    | zero =>
      obtain ⟨acts, h, ha⟩ := runBatch_events cfg db m b0 batch (okOf b0)
      refine ⟨[], acts, (runBatches cfg okOf (b0 + 1) (runBatch cfg db m b0 batch (okOf b0)).db
        (runBatch cfg db m b0 batch (okOf b0)).mirror rest).events, ?_, ?_, ?_, ?_⟩
      · rw [h]
        simp [List.append_assoc]
      · simpa using ha
      · simp
      · intro e he hc
        have := runBatches_batchOf_ge cfg okOf rest (b0 + 1) _ _ e he (b0 + 0) hc
        omega
    | succ i0 =>
      obtain ⟨l1, l2, l3, h, ha, hb, hc⟩ := ih (b0 + 1)
        (runBatch cfg db m b0 batch (okOf b0)).db
        (runBatch cfg db m b0 batch (okOf b0)).mirror i0 (by simpa using Nat.lt_of_succ_lt_succ hi)
      have harith : b0 + 1 + i0 = b0 + (i0 + 1) := by omega
      rw [harith] at h ha hb hc
      refine ⟨(runBatch cfg db m b0 batch (okOf b0)).events ++ l1, l2, l3, ?_, ha, ?_, hc⟩
      · rw [h]
        simp [List.append_assoc]
      · intro e he hcon
        rcases List.mem_append.mp he with h2 | h2
        · have h4 := runBatch_events_batchOf cfg db m b0 batch (okOf b0) e h2
          rw [h4] at hcon
          have := Option.some.inj hcon
          omega
        · exact hb e h2 hcon


/-- C4: in the full run's sequence of performed calls, each batch's diff comes
first, all of the batch's link actions (stale removal, replace-unlink, link
creation) lie strictly between the diff and the batch's single index upsert,
and nothing of the batch happens outside that window — so an index upsert
never precedes a link action of its batch. -/
theorem claim_c4_batch_ordering (cfg : Config) (src : FsPath → Bool)
    (tracks : List Track) (dbFile : Option Db) (m0 : Mirror) (okOf : Nat → Bool)
    (b : Nat) (hb : b < (chunked tracks cfg.batchSize).length) :
    ∃ l1 l2 l3, (runMain cfg src tracks dbFile m0 okOf).events =
      l1 ++ [Ev.diffBatch b] ++ l2 ++ [Ev.upsertBatch b] ++ l3 ∧
      (∀ e ∈ l2, e.isLinkActionOf b = true) ∧
      (∀ e ∈ l1, e.batchOf ≠ some b) ∧
      (∀ e ∈ l3, e.batchOf ≠ some b) := by
  obtain ⟨l1, l2, l3, h, ha, hpre, hpost⟩ := runBatches_events_decomp cfg okOf
    (chunked tracks cfg.batchSize) 0 (establish_db_connection dbFile).1
    (sweepLinks cfg.dryRun src m0).1 b hb
  rw [Nat.zero_add] at h ha hpre hpost
  refine ⟨Ev.connectDb :: Ev.sweepPre :: l1, l2, l3 ++ [Ev.sweepPost], ?_, ha, ?_, ?_⟩
  · unfold runMain
    simp only
    rw [h]
    simp [List.append_assoc]
  · intro e he
    rcases List.mem_cons.mp he with h2 | h2
    · subst h2; simp [Ev.batchOf]
    · rcases List.mem_cons.mp h2 with h3 | h3
      · subst h3; simp [Ev.batchOf]
      · exact hpre e h3
  · intro e he
    rcases List.mem_append.mp he with h2 | h2
    · exact hpost e h2
    · rw [List.mem_singleton] at h2
      subst h2; simp [Ev.batchOf]

/-- Witness for C4 at a concrete one-batch run. -/
theorem claim_c4_batch_ordering_witness :
    ∃ l1 l2 l3, (runMain exCfg exSrc [exTrack] none [] (fun _ => true)).events =
      l1 ++ [Ev.diffBatch 0] ++ l2 ++ [Ev.upsertBatch 0] ++ l3 ∧
      (∀ e ∈ l2, e.isLinkActionOf 0 = true) ∧
      (∀ e ∈ l1, e.batchOf ≠ some 0) ∧
      (∀ e ∈ l3, e.batchOf ≠ some 0) :=
  claim_c4_batch_ordering exCfg exSrc [exTrack] none [] (fun _ => true) 0 (by decide)

/-! ## C2: idempotence of a second run -/

lemma chunkedFuel_congr :
    ∀ (f1 : Nat) (l : List α) (f2 n : Nat), l.length ≤ f1 → l.length ≤ f2 →
      chunkedFuel f1 l (n + 1) = chunkedFuel f2 l (n + 1) := by
  intro f1
  induction f1 with
  | zero =>
    intro l f2 n h1 h2
    cases l with
    | nil => cases f2 <;> rfl
    | cons x xs => simp at h1
  | succ f ih =>
    intro l f2 n h1 h2
    cases l with
    | nil => cases f2 <;> rfl
    | cons x xs =>
      cases f2 with
      | zero => simp at h2
      | succ g =>
        rw [chunkedFuel, chunkedFuel]
        have hd : ((x :: xs).drop (n + 1)).length ≤ f := by
          simp only [List.length_drop, List.length_cons]
          simp only [List.length_cons] at h1
          omega
        have hd2 : ((x :: xs).drop (n + 1)).length ≤ g := by
          simp only [List.length_drop, List.length_cons]
          simp only [List.length_cons] at h2
          omega
        rw [ih ((x :: xs).drop (n + 1)) g n hd hd2]

lemma chunkedFuel_nil (f n : Nat) : chunkedFuel f ([] : List α) n = [] := by
  cases f <;> rfl

lemma chunked_nil (s : Nat) : chunked ([] : List α) s = [] := by
  cases s <;> rfl

lemma chunked_cons (x : α) (xs : List α) (n : Nat) :
    chunked (x :: xs) (n + 1) =
      ((x :: xs).take (n + 1)) :: chunked ((x :: xs).drop (n + 1)) (n + 1) := by
  unfold chunked
  simp only [List.length_cons]
  rw [chunkedFuel]
  cases hd : (x :: xs).drop (n + 1) with
  | nil => rw [chunkedFuel_nil, chunkedFuel_nil]
  | cons y ys =>
    congr 1
    refine chunkedFuel_congr _ _ _ _ ?_ le_rfl
    have := congrArg List.length hd
    simp only [List.length_drop, List.length_cons] at this ⊢
    omega

lemma chunked_flatten : ∀ (k : Nat) (l : List α) (n : Nat), l.length ≤ k →
    (chunked l (n + 1)).flatten = l := by
  intro k
  induction k with
  | zero =>
    intro l n h
    cases l with
    | nil => simp [chunked_nil]
    | cons x xs => simp at h
  | succ k ih =>
    intro l n h
    cases l with
    | nil => simp [chunked_nil]
    | cons x xs =>
      rw [chunked_cons, List.flatten_cons]
      rw [ih ((x :: xs).drop (n + 1)) n
        (by simp only [List.length_drop, List.length_cons]; simp only [List.length_cons] at h; omega)]
      exact List.take_append_drop _ _


lemma processTrack_doneTracks_some (cfg : Config) (b : Nat)
    (results : String → Option DiffResult) (st : BatchState) (t : Track)
    (res : DiffResult) (hres : results t.audio_md5 = some res) :
    (processTrack cfg b results st t).doneTracks = st.doneTracks ++ [relinked cfg t] := by
  unfold processTrack
  rw [hres]
  rfl

lemma foldl_processTrack_doneTracks (cfg : Config) (b : Nat)
    (results : String → Option DiffResult) :
    ∀ (batch : List Track) (st : BatchState),
      (∀ t ∈ batch, (results t.audio_md5).isSome) →
      (batch.foldl (processTrack cfg b results) st).doneTracks =
        st.doneTracks ++ batch.map (relinked cfg) := by
  intro batch
  induction batch with
  | nil => intro st _; simp
  | cons t ts ih =>
    intro st h
    obtain ⟨res, hres⟩ := Option.isSome_iff_exists.mp (h t (List.mem_cons_self _ _))
    rw [List.foldl_cons, ih _ (fun u hu => h u (List.mem_cons_of_mem _ hu)),
      processTrack_doneTracks_some cfg b results st t res hres]
    simp

lemma batch_results_isSome {batch : List Track} {db : Db} {t : Track}
    (hN : (batch.map (fun u => u.audio_md5)).Nodup) (ht : t ∈ batch)
    (hne : t.audio_md5 ≠ "") :
    (bulk_compare_with_db batch db t.audio_md5).isSome := by
  rw [bulk_compare_lookup hN ht hne]
  rfl

lemma runBatch_db (cfg : Config) (hdry : cfg.dryRun = false) (db : Db) (m : Mirror)
    (b : Nat) (batch : List Track)
    (hkeys : ∀ t ∈ batch, t.audio_md5 ≠ "")
    (hN : (batch.map (fun u => u.audio_md5)).Nodup) :
    (runBatch cfg db m b batch true).db =
      upsertRows db ((batch.map (relinked cfg)).map Track.toRow) := by
  unfold runBatch update_tracks_in_db
  rw [hdry]
  simp only [Bool.false_eq_true, if_false, if_true]
  rw [foldl_processTrack_doneTracks cfg b _ batch _
    (fun t ht => batch_results_isSome hN ht (hkeys t ht))]
  simp


lemma relinked_keys (cfg : Config) (batch : List Track) :
    (((batch.map (relinked cfg)).map Track.toRow).map (fun r => r.audio_md5)) =
      batch.map (fun t => t.audio_md5) := by
  rw [List.map_map, List.map_map]
  rfl

lemma runBatches_db_other (cfg : Config) (hdry : cfg.dryRun = false) :
    ∀ (bs : List (List Track)) (b0 : Nat) (db : Db) (m : Mirror) (k : String),
      (∀ t ∈ bs.flatten, t.audio_md5 ≠ "") →
      ((bs.flatten.map (fun t => t.audio_md5)).Nodup) →
      (∀ t ∈ bs.flatten, t.audio_md5 ≠ k) →
      rowLookup (runBatches cfg (fun _ => true) b0 db m bs).db k = rowLookup db k := by
  intro bs
  induction bs with
  | nil => intro b0 db m k _ _ _; rfl
  | cons batch rest ih =>
    intro b0 db m k hkeys hN hk
    rw [List.flatten_cons] at hkeys hN hk
    rw [List.map_append] at hN
    obtain ⟨hN1, hN2, _⟩ := List.nodup_append.mp hN
    unfold runBatches
    simp only
    rw [ih (b0 + 1) _ _ k (fun t ht => hkeys t (List.mem_append_right _ ht)) hN2
      (fun t ht => hk t (List.mem_append_right _ ht))]
    rw [runBatch_db cfg hdry db m b0 batch (fun t ht => hkeys t (List.mem_append_left _ ht)) hN1]
    apply rowLookup_upsertRows_other
    intro y hy
    rcases List.mem_map.mp hy with ⟨u, hu, hyu⟩
    rcases List.mem_map.mp hu with ⟨t, htb, hut⟩
    subst hyu
    subst hut
    exact hk t (List.mem_append_left _ htb)

lemma runBatches_db_mem (cfg : Config) (hdry : cfg.dryRun = false) :
    ∀ (bs : List (List Track)) (b0 : Nat) (db : Db) (m : Mirror),
      (∀ t ∈ bs.flatten, t.audio_md5 ≠ "") →
      ((bs.flatten.map (fun t => t.audio_md5)).Nodup) →
      ∀ t ∈ bs.flatten,
        rowLookup (runBatches cfg (fun _ => true) b0 db m bs).db t.audio_md5 =
          some (Track.toRow (relinked cfg t)) := by
  intro bs
  induction bs with
  | nil => intro b0 db m _ _ t ht; exact absurd ht (by simp)
  | cons batch rest ih =>
    intro b0 db m hkeys hN t ht
    rw [List.flatten_cons] at hkeys hN ht
    rw [List.map_append] at hN
    obtain ⟨hN1, hN2, hdisj⟩ := List.nodup_append.mp hN
    unfold runBatches
    simp only
    rcases List.mem_append.mp ht with h | h
    · rw [runBatches_db_other cfg hdry rest (b0 + 1) _ _ t.audio_md5
        (fun u hu => hkeys u (List.mem_append_right _ hu)) hN2 ?_]
      · rw [runBatch_db cfg hdry db m b0 batch
          (fun u hu => hkeys u (List.mem_append_left _ hu)) hN1]
        exact rowLookup_upsertRows_mem ((batch.map (relinked cfg)).map Track.toRow) db
          ((relinked cfg t).toRow)
          (List.mem_map_of_mem _ (List.mem_map_of_mem _ h))
          (by rw [relinked_keys]; exact hN1)
      · intro u hu hc
        exact hdisj (List.mem_map_of_mem _ h) (hc ▸ List.mem_map_of_mem _ hu)
    · exact ih (b0 + 1) _ _ (fun u hu => hkeys u (List.mem_append_right _ hu)) hN2 t h

lemma mirrorSet_targets {src : FsPath → Bool} {m : Mirror} {p tgt : FsPath}
    (hm : ∀ e ∈ m, src e.2 = true) (ht : src tgt = true) :
    ∀ e ∈ mirrorSet m p tgt, src e.2 = true := by
  unfold mirrorSet
  split
  · intro e he
    rcases List.mem_map.mp he with ⟨a, ha, hea⟩
    by_cases hk : (a.1 == p) = true
    · rw [if_pos hk] at hea
      subst hea
      exact ht
    · rw [if_neg hk] at hea
      subst hea
      exact hm a ha
  · intro e he
    rcases List.mem_append.mp he with h | h
    · exact hm e h
    · rw [List.mem_singleton] at h
      subst h
      exact ht

lemma mirrorErase_targets {src : FsPath → Bool} {m : Mirror} {p : FsPath}
    (hm : ∀ e ∈ m, src e.2 = true) :
    ∀ e ∈ mirrorErase m p, src e.2 = true :=
  fun e he => hm e (List.mem_of_mem_filter he)

lemma remove_symlink_targets {src : FsPath → Bool} {m : Mirror} (t : Track)
    (base : FsPath) (dry : Bool) (hm : ∀ e ∈ m, src e.2 = true) :
    ∀ e ∈ (remove_symlink t base dry m).1, src e.2 = true := by
  by_cases hs : (mirrorLookup m (removeSymlinkPath base t)).isSome = true
  · by_cases hd : dry = true
    · intro e he
      refine hm e ?_
      simpa [remove_symlink, hs, hd] using he
    · intro e he
      have h2 : e ∈ mirrorErase m (removeSymlinkPath base t) := by
        simpa [remove_symlink, hs, hd] using he
      exact mirrorErase_targets hm e h2
  · intro e he
    refine hm e ?_
    simpa [remove_symlink, hs] using he

lemma create_symlink_targets {src : FsPath → Bool} {m : Mirror} (t : Track)
    (base : FsPath) (dry : Bool) (L : Nat) (hm : ∀ e ∈ m, src e.2 = true)
    (ht : src (resolvePath t.filepath) = true) :
    ∀ e ∈ (create_symlink t base dry L m).1, src e.2 = true := by
  unfold create_symlink
  split
  · exact hm
  · exact mirrorSet_targets hm ht

lemma processTrack_targets {src : FsPath → Bool} (cfg : Config) (b : Nat)
    (results : String → Option DiffResult) (st : BatchState) (t : Track)
    (hm : ∀ e ∈ st.mirror, src e.2 = true)
    (ht : src (resolvePath t.filepath) = true) :
    ∀ e ∈ (processTrack cfg b results st t).mirror, src e.2 = true := by
  unfold processTrack
  cases results t.audio_md5 with
  | none => exact hm
  | some res =>
    simp only
    by_cases hres : res.result = true
    · simp only [hres, if_true]
      exact create_symlink_targets t _ _ _
        (remove_symlink_targets res.previousTrack _ _ hm) ht
    · simp only [hres, Bool.false_eq_true, if_false]
      exact create_symlink_targets t _ _ _ hm ht

lemma foldl_processTrack_targets {src : FsPath → Bool} (cfg : Config) (b : Nat)
    (results : String → Option DiffResult) :
    ∀ (batch : List Track) (st : BatchState),
      (∀ e ∈ st.mirror, src e.2 = true) →
      (∀ t ∈ batch, src (resolvePath t.filepath) = true) →
      ∀ e ∈ (batch.foldl (processTrack cfg b results) st).mirror, src e.2 = true := by
  intro batch
  induction batch with
  | nil => intro st hm _; exact hm
  | cons t ts ih =>
    intro st hm hts
    rw [List.foldl_cons]
    exact ih _ (processTrack_targets cfg b results st t hm (hts t (List.mem_cons_self _ _)))
      (fun u hu => hts u (List.mem_cons_of_mem _ hu))

lemma runBatch_targets {src : FsPath → Bool} (cfg : Config) (db : Db) (m : Mirror)
    (b : Nat) (batch : List Track) (ok : Bool)
    (hm : ∀ e ∈ m, src e.2 = true)
    (hts : ∀ t ∈ batch, src (resolvePath t.filepath) = true) :
    ∀ e ∈ (runBatch cfg db m b batch ok).mirror, src e.2 = true := by
  unfold runBatch
  exact foldl_processTrack_targets cfg b _ batch _ hm hts

lemma runBatches_targets {src : FsPath → Bool} (cfg : Config) (okOf : Nat → Bool) :
    ∀ (bs : List (List Track)) (b0 : Nat) (db : Db) (m : Mirror),
      (∀ e ∈ m, src e.2 = true) →
      (∀ t ∈ bs.flatten, src (resolvePath t.filepath) = true) →
      ∀ e ∈ (runBatches cfg okOf b0 db m bs).mirror, src e.2 = true := by
  intro bs
  induction bs with
  | nil => intro b0 db m hm _; exact hm
  | cons batch rest ih =>
    intro b0 db m hm hts
    rw [List.flatten_cons] at hts
    unfold runBatches
    simp only
    exact ih (b0 + 1) _ _
      (runBatch_targets cfg db m b0 batch (okOf b0) hm
        (fun t ht => hts t (List.mem_append_left _ ht)))
      (fun t ht => hts t (List.mem_append_right _ ht))

lemma sweepLinks_live {src : FsPath → Bool} {m : Mirror}
    (hm : ∀ e ∈ m, src e.2 = true) : sweepLinks false src m = (m, 0) := by
  unfold sweepLinks
  simp only [Bool.false_eq_true, if_false]
  rw [List.filter_eq_self.mpr hm]
  have : m.filter (fun e => !src e.2) = [] :=
    List.filter_eq_nil_iff.mpr (fun e he => by simp [hm e he])
  rw [this]
  rfl

lemma sweepLinks_fst_targets {src : FsPath → Bool} (m : Mirror) :
    ∀ e ∈ (sweepLinks false src m).1, src e.2 = true := by
  unfold sweepLinks
  simp only [Bool.false_eq_true, if_false]
  intro e he
  have := List.of_mem_filter he
  exact this

lemma processTrack_unchanged (cfg : Config) (b : Nat)
    (results : String → Option DiffResult) (st : BatchState) (t : Track)
    (prev : Track) (hres : results t.audio_md5 = some ⟨false, prev⟩) :
    (processTrack cfg b results st t).counts.staleUnlinks = st.counts.staleUnlinks ∧
    (processTrack cfg b results st t).counts.created = st.counts.created + 1 ∧
    ∃ new, (processTrack cfg b results st t).events = st.events ++ new ∧
      ∀ b2 p, Ev.removeStale b2 p ∉ new := by
  unfold processTrack
  rw [hres]
  refine ⟨by simp, by simp, ?_⟩
  simp only [Bool.false_eq_true, if_false]
  refine ⟨(if (create_symlink t cfg.baseDir cfg.dryRun cfg.sanitizerLength st.mirror).2.2.2 = true
      then [Ev.unlinkExisting b (symlinkPathOf cfg.baseDir t cfg.sanitizerLength)] else []) ++
    [Ev.createLink b (symlinkPathOf cfg.baseDir t cfg.sanitizerLength)
      (resolvePath t.filepath)], ?_, ?_⟩
  · simp [List.append_assoc]
  · intro b2 p hmem
    rcases List.mem_append.mp hmem with h | h
    · split at h
      · rw [List.mem_singleton] at h
        exact Ev.noConfusion h
      · exact absurd h (List.not_mem_nil _)
    · rw [List.mem_singleton] at h
      exact Ev.noConfusion h

lemma foldl_processTrack_unchanged (cfg : Config) (b : Nat)
    (results : String → Option DiffResult) :
    ∀ (batch : List Track) (st : BatchState),
      (∀ t ∈ batch, ∃ prev, results t.audio_md5 = some ⟨false, prev⟩) →
      (batch.foldl (processTrack cfg b results) st).counts.staleUnlinks =
        st.counts.staleUnlinks ∧
      (batch.foldl (processTrack cfg b results) st).counts.created =
        st.counts.created + batch.length ∧
      ∃ new, (batch.foldl (processTrack cfg b results) st).events = st.events ++ new ∧
        ∀ b2 p, Ev.removeStale b2 p ∉ new := by
  intro batch
  induction batch with
  | nil => intro st _; exact ⟨rfl, rfl, [], by simp, by simp⟩
  | cons t ts ih =>
    intro st h
    obtain ⟨prev, hprev⟩ := h t (List.mem_cons_self _ _)
    obtain ⟨h1, h2, new1, hev1, hno1⟩ := processTrack_unchanged cfg b results st t prev hprev
    obtain ⟨h3, h4, new2, hev2, hno2⟩ := ih (processTrack cfg b results st t)
      (fun u hu => h u (List.mem_cons_of_mem _ hu))
    rw [List.foldl_cons]
    refine ⟨by rw [h3, h1], by rw [h4, h2, List.length_cons]; omega, new1 ++ new2, ?_, ?_⟩
    · rw [hev2, hev1, List.append_assoc]
    · intro b2 p hmem
      rcases List.mem_append.mp hmem with hmm | hmm
      · exact hno1 b2 p hmm
      · exact hno2 b2 p hmm

lemma runBatch_unchanged (cfg : Config) (db : Db) (m : Mirror) (b : Nat)
    (batch : List Track) (ok : Bool)
    (hflag : ∀ t ∈ batch, ∃ prev,
      bulk_compare_with_db batch db t.audio_md5 = some ⟨false, prev⟩) :
    (runBatch cfg db m b batch ok).counts.staleUnlinks = 0 ∧
    (runBatch cfg db m b batch ok).counts.created = batch.length ∧
    ∀ b2 p, Ev.removeStale b2 p ∉ (runBatch cfg db m b batch ok).events := by
  unfold runBatch
  obtain ⟨h1, h2, new, hev, hno⟩ := foldl_processTrack_unchanged cfg b
    (bulk_compare_with_db batch db) batch ⟨m, [], ⟨0, 0, 0⟩, []⟩ hflag
  simp only
  refine ⟨h1, by rw [h2]; simp, ?_⟩
  intro b2 p hmem
  rw [hev] at hmem
  rcases List.mem_cons.mp hmem with h | h
  · exact Ev.noConfusion h
  · rcases List.mem_append.mp h with h3 | h3
    · rcases List.mem_append.mp h3 with h4 | h4
      · exact absurd h4 (List.not_mem_nil _)
      · exact hno b2 p h4
    · rw [List.mem_singleton] at h3
      exact Ev.noConfusion h3

lemma upsertRow_keys_nodup {db : Db} {r : DbRow}
    (h : (db.map (fun x => x.audio_md5)).Nodup) :
    ((upsertRow db r).map (fun x => x.audio_md5)).Nodup := by
  unfold upsertRow
  split
  · rw [List.map_map]
    have : db.map ((fun x => x.audio_md5) ∘ fun x => if (x.audio_md5 == r.audio_md5) = true then r else x) =
        db.map (fun x => x.audio_md5) := by
      refine List.map_congr_left ?_
      intro a _
      simp only [Function.comp]
      split
      next hx => simp only [beq_iff_eq] at hx; rw [hx]
      · rfl
    rw [this]
    exact h
  next hany =>
    rw [List.map_append, List.nodup_append]
    refine ⟨h, by simp, ?_⟩
    intro k hk hk2
    simp only [List.map_cons, List.map_nil, List.mem_singleton] at hk2
    subst hk2
    rcases List.mem_map.mp hk with ⟨x, hx, hxk⟩
    exact hany (List.any_eq_true.mpr ⟨x, hx, by simp [hxk]⟩)

lemma upsertRows_keys_nodup {rs : List DbRow} :
    ∀ {db : Db}, (db.map (fun x => x.audio_md5)).Nodup →
    ((upsertRows db rs).map (fun x => x.audio_md5)).Nodup := by
  induction rs with
  | nil => intro db h; exact h
  | cons r rest ih =>
    intro db h
    unfold upsertRows
    rw [List.foldl_cons]
    exact ih (upsertRow_keys_nodup h)

lemma runBatch_db_keys_nodup (cfg : Config) (db : Db) (m : Mirror) (b : Nat)
    (batch : List Track) (ok : Bool) (h : (db.map (fun x => x.audio_md5)).Nodup) :
    ((runBatch cfg db m b batch ok).db.map (fun x => x.audio_md5)).Nodup := by
  unfold runBatch update_tracks_in_db
  split
  · exact h
  · split
    · exact upsertRows_keys_nodup h
    · exact h

lemma batch_flags_false {batch : List Track} {db : Db}
    (hkeys : ∀ t ∈ batch, t.audio_md5 ≠ "")
    (hN : (batch.map (fun u => u.audio_md5)).Nodup)
    (hDbN : (db.map (fun r => r.audio_md5)).Nodup)
    (hmh : ∀ t ∈ batch, ∃ r, rowLookup db t.audio_md5 = some r ∧
      r.metadata_hash = t.metadata_hash) :
    ∀ t ∈ batch, ∃ prev, bulk_compare_with_db batch db t.audio_md5 =
      some ⟨false, prev⟩ := by
  intro t ht
  obtain ⟨r, hr, hrmh⟩ := hmh t ht
  refine ⟨reconstructTrack t r, ?_⟩
  rw [bulk_compare_lookup hN ht (hkeys t ht),
    dbLookupOf_some hDbN hN ht (hkeys t ht) hr]
  have : compare_tracks t (reconstructTrack t r) = false := by
    unfold compare_tracks reconstructTrack
    simp only
    rw [hrmh]
    exact bne_self_eq_false t.metadata_hash
  show some (⟨compare_tracks t (reconstructTrack t r), reconstructTrack t r⟩ : DiffResult) =
    some (⟨false, reconstructTrack t r⟩ : DiffResult)
  rw [this]

lemma runBatches_unchanged (cfg : Config) (hdry : cfg.dryRun = false)
    (src : FsPath → Bool) :
    ∀ (bs : List (List Track)) (b0 : Nat) (db : Db) (m : Mirror),
      (∀ t ∈ bs.flatten, t.audio_md5 ≠ "") →
      ((bs.flatten.map (fun t => t.audio_md5)).Nodup) →
      ((db.map (fun r => r.audio_md5)).Nodup) →
      (∀ t ∈ bs.flatten, ∃ r, rowLookup db t.audio_md5 = some r ∧
        r.metadata_hash = t.metadata_hash) →
      (∀ t ∈ bs.flatten, src (resolvePath t.filepath) = true) →
      (∀ e ∈ m, src e.2 = true) →
      (runBatches cfg (fun _ => true) b0 db m bs).counts.staleUnlinks = 0 ∧
      (runBatches cfg (fun _ => true) b0 db m bs).counts.created = bs.flatten.length ∧
      (∀ b2 p, Ev.removeStale b2 p ∉ (runBatches cfg (fun _ => true) b0 db m bs).events) ∧
      (∀ e ∈ (runBatches cfg (fun _ => true) b0 db m bs).mirror, src e.2 = true) := by
  intro bs
  induction bs with
  | nil =>
    intro b0 db m _ _ _ _ _ hm
    exact ⟨rfl, by simp [runBatches], by simp [runBatches], hm⟩
  | cons batch rest ih =>
    intro b0 db m hkeys hN hDbN hmh hsrc hm
    rw [List.flatten_cons] at hkeys hN hmh hsrc
    rw [List.map_append] at hN
    obtain ⟨hN1, hN2, hdisj⟩ := List.nodup_append.mp hN
    have hkeys1 : ∀ t ∈ batch, t.audio_md5 ≠ "" :=
      fun t ht => hkeys t (List.mem_append_left _ ht)
    have hflags := batch_flags_false hkeys1 hN1 hDbN
      (fun t ht => hmh t (List.mem_append_left _ ht))
    obtain ⟨hb1, hb2, hb3⟩ := runBatch_unchanged cfg db m b0 batch true hflags
    have hdb1 : (runBatch cfg db m b0 batch true).db =
        upsertRows db ((batch.map (relinked cfg)).map Track.toRow) :=
      runBatch_db cfg hdry db m b0 batch hkeys1 hN1
    have hmh2 : ∀ t ∈ rest.flatten, ∃ r,
        rowLookup (runBatch cfg db m b0 batch true).db t.audio_md5 = some r ∧
        r.metadata_hash = t.metadata_hash := by
      intro t ht
      obtain ⟨r, hr, hrmh⟩ := hmh t (List.mem_append_right _ ht)
      refine ⟨r, ?_, hrmh⟩
      rw [hdb1, rowLookup_upsertRows_other]
      · exact hr
      · intro y hy
        rcases List.mem_map.mp hy with ⟨u, hu, hyu⟩
        rcases List.mem_map.mp hu with ⟨w, hwb, hwu⟩
        subst hyu
        subst hwu
        intro hc
        have hc2 : w.audio_md5 = t.audio_md5 := hc
        exact hdisj (List.mem_map_of_mem _ hwb)
          (by rw [hc2]; exact List.mem_map_of_mem _ ht)
    have hDbN2 : ((runBatch cfg db m b0 batch true).db.map (fun r => r.audio_md5)).Nodup :=
      runBatch_db_keys_nodup cfg db m b0 batch true hDbN
    have hmirror1 : ∀ e ∈ (runBatch cfg db m b0 batch true).mirror, src e.2 = true :=
      runBatch_targets cfg db m b0 batch true hm
        (fun t ht => hsrc t (List.mem_append_left _ ht))
    obtain ⟨hr1, hr2, hr3, hr4⟩ := ih (b0 + 1) (runBatch cfg db m b0 batch true).db
      (runBatch cfg db m b0 batch true).mirror
      (fun t ht => hkeys t (List.mem_append_right _ ht)) hN2 hDbN2 hmh2
      (fun t ht => hsrc t (List.mem_append_right _ ht)) hmirror1
    unfold runBatches
    simp only
    refine ⟨?_, ?_, ?_, hr4⟩
    · show ((runBatch cfg db m b0 batch true).counts.add
        (runBatches cfg (fun _ => true) (b0 + 1) _ _ rest).counts).staleUnlinks = 0
      unfold RunCounts.add
      simp only
      rw [hb1, hr1]
    · show ((runBatch cfg db m b0 batch true).counts.add
        (runBatches cfg (fun _ => true) (b0 + 1) _ _ rest).counts).created =
        (batch ++ rest.flatten).length
      unfold RunCounts.add
      simp only
      rw [hb2, hr2, List.length_append]
    · intro b2 p hmem
      rcases List.mem_append.mp hmem with h | h
      · exact hb3 b2 p h
      · exact hr3 b2 p h

lemma runBatches_db_keys_nodup (cfg : Config) (okOf : Nat → Bool) :
    ∀ (bs : List (List Track)) (b0 : Nat) (db : Db) (m : Mirror),
      (db.map (fun r => r.audio_md5)).Nodup →
      ((runBatches cfg okOf b0 db m bs).db.map (fun r => r.audio_md5)).Nodup := by
  intro bs
  induction bs with
  | nil => intro b0 db m h; exact h
  | cons batch rest ih =>
    intro b0 db m h
    unfold runBatches
    exact ih (b0 + 1) _ _ (runBatch_db_keys_nodup cfg db m b0 batch (okOf b0) h)

/-- C2 (amended): on the second of two identical runs every track is classified
Unchanged — the stale-link removal step is never invoked and both sweeps remove
zero links — but, because reconciliation always regenerates the current link,
the second run still performs one link creation per track (replacing each link
in place) rather than zero. -/
theorem claim_c2_idempotence_amended (cfg : Config) (src : FsPath → Bool)
    (tracks : List Track) (rows0 : Db) (m0 : Mirror)
    (hdry : cfg.dryRun = false) (hbs : 0 < cfg.batchSize)
    (hkeys : ∀ t ∈ tracks, t.audio_md5 ≠ "")
    (hN : (tracks.map (fun t => t.audio_md5)).Nodup)
    (hrows : (rows0.map (fun r => r.audio_md5)).Nodup)
    (hsrc : ∀ t ∈ tracks, src (resolvePath t.filepath) = true) :
    (runTwice cfg src tracks rows0 m0).counts.staleUnlinks = 0 ∧
    (∀ b p, Ev.removeStale b p ∉ (runTwice cfg src tracks rows0 m0).events) ∧
    (runTwice cfg src tracks rows0 m0).sweepPreRemoved = 0 ∧
    (runTwice cfg src tracks rows0 m0).sweepPostRemoved = 0 ∧
    (runTwice cfg src tracks rows0 m0).counts.created = tracks.length := by
  obtain ⟨n, hn⟩ : ∃ n, cfg.batchSize = n + 1 := ⟨cfg.batchSize - 1, by omega⟩
  have hflat : (chunked tracks cfg.batchSize).flatten = tracks := by
    rw [hn]
    exact chunked_flatten tracks.length tracks n le_rfl
  -- the first run's final database and mirror
  have hm1live : ∀ e ∈ (runMain cfg src tracks (some rows0) m0 (fun _ => true)).mirror,
      src e.2 = true := by
    unfold runMain
    rw [hdry]
    exact sweepLinks_fst_targets _
  have hdb1 : ∀ t ∈ tracks, ∃ r,
      rowLookup (runBatches cfg (fun _ => true) 0 rows0
        (sweepLinks cfg.dryRun src m0).1 (chunked tracks cfg.batchSize)).db t.audio_md5 =
        some r ∧ r.metadata_hash = t.metadata_hash := by
    intro t ht
    refine ⟨Track.toRow (relinked cfg t), ?_, rfl⟩
    exact runBatches_db_mem cfg hdry (chunked tracks cfg.batchSize) 0 rows0
      (sweepLinks cfg.dryRun src m0).1
      (by rw [hflat]; exact hkeys) (by rw [hflat]; exact hN) t (by rw [hflat]; exact ht)
  have hdb1N : ((runBatches cfg (fun _ => true) 0 rows0
      (sweepLinks cfg.dryRun src m0).1 (chunked tracks cfg.batchSize)).db.map
        (fun r => r.audio_md5)).Nodup :=
    runBatches_db_keys_nodup cfg (fun _ => true) (chunked tracks cfg.batchSize) 0 rows0
      (sweepLinks cfg.dryRun src m0).1 hrows
  -- the second run's pre-sweep is a no-op
  have hpre : sweepLinks false src
      (runMain cfg src tracks (some rows0) m0 (fun _ => true)).mirror =
      ((runMain cfg src tracks (some rows0) m0 (fun _ => true)).mirror, 0) :=
    sweepLinks_live hm1live
  -- the second run's batch phase
  obtain ⟨hu1, hu2, hu3, hu4⟩ := runBatches_unchanged cfg hdry src
    (chunked tracks cfg.batchSize) 0
    (runBatches cfg (fun _ => true) 0 rows0 (sweepLinks cfg.dryRun src m0).1
      (chunked tracks cfg.batchSize)).db
    (runMain cfg src tracks (some rows0) m0 (fun _ => true)).mirror
    (by rw [hflat]; exact hkeys) (by rw [hflat]; exact hN) hdb1N
    (by rw [hflat]; exact hdb1) (by rw [hflat]; exact hsrc) hm1live
  rw [hdry] at hu1 hu2 hu3 hu4
  -- assemble
  have hfst : (sweepLinks false src
      (runMain cfg src tracks (some rows0) m0 (fun _ => true)).mirror).1 =
      (runMain cfg src tracks (some rows0) m0 (fun _ => true)).mirror :=
    congrArg Prod.fst hpre
  have hsnd : (sweepLinks false src
      (runMain cfg src tracks (some rows0) m0 (fun _ => true)).mirror).2 = 0 :=
    congrArg Prod.snd hpre
  refine ⟨?_, ?_, ?_, ?_, ?_⟩
  · show (runBatches cfg (fun _ => true) 0
        (runBatches cfg (fun _ => true) 0 rows0 (sweepLinks cfg.dryRun src m0).1
          (chunked tracks cfg.batchSize)).db
        (sweepLinks cfg.dryRun src
          (runMain cfg src tracks (some rows0) m0 (fun _ => true)).mirror).1
        (chunked tracks cfg.batchSize)).counts.staleUnlinks = 0
    rw [hdry, hfst]
    exact hu1
  · have hev : (runTwice cfg src tracks rows0 m0).events =
        Ev.connectDb :: Ev.sweepPre ::
          (runBatches cfg (fun _ => true) 0
            (runBatches cfg (fun _ => true) 0 rows0 (sweepLinks cfg.dryRun src m0).1
              (chunked tracks cfg.batchSize)).db
            (sweepLinks cfg.dryRun src
              (runMain cfg src tracks (some rows0) m0 (fun _ => true)).mirror).1
            (chunked tracks cfg.batchSize)).events ++ [Ev.sweepPost] := rfl
    rw [hdry, hfst] at hev
    intro b p hmem
    rw [hev] at hmem
    rcases List.mem_cons.mp hmem with h | h
    · exact Ev.noConfusion h
    · rcases List.mem_cons.mp h with h2 | h2
      · exact Ev.noConfusion h2
      · rcases List.mem_append.mp h2 with h3 | h3
        · exact hu3 b p h3
        · rw [List.mem_singleton] at h3
          exact Ev.noConfusion h3
  · show (sweepLinks cfg.dryRun src
        (runMain cfg src tracks (some rows0) m0 (fun _ => true)).mirror).2 = 0
    rw [hdry]
    exact hsnd
  · show (sweepLinks cfg.dryRun src
        (runBatches cfg (fun _ => true) 0
          (runBatches cfg (fun _ => true) 0 rows0 (sweepLinks cfg.dryRun src m0).1
            (chunked tracks cfg.batchSize)).db
          (sweepLinks cfg.dryRun src
            (runMain cfg src tracks (some rows0) m0 (fun _ => true)).mirror).1
          (chunked tracks cfg.batchSize)).mirror).2 = 0
    rw [hdry, hfst]
    exact congrArg Prod.snd (sweepLinks_live hu4)
  · show (runBatches cfg (fun _ => true) 0
        (runBatches cfg (fun _ => true) 0 rows0 (sweepLinks cfg.dryRun src m0).1
          (chunked tracks cfg.batchSize)).db
        (sweepLinks cfg.dryRun src
          (runMain cfg src tracks (some rows0) m0 (fun _ => true)).mirror).1
        (chunked tracks cfg.batchSize)).counts.created = tracks.length
    rw [hdry, hfst, hu2, hflat]

/-- C2 counterexample: with one track, an unchanged source tree and the mirror
and index produced by the first run, the second run still performs one link
creation (and one unlink of the existing link it replaces) — not zero. -/
theorem claim_c2_idempotence_counterexample :
    (runTwice exCfg exSrc [exTrack] [] []).counts.created = 1 ∧
    (runTwice exCfg exSrc [exTrack] [] []).counts.replaceUnlinks = 1 := by
  constructor
  · decide
  · decide

/-- Witness for the amended C2 at a concrete one-track world. -/
theorem claim_c2_idempotence_witness :
    (runTwice exCfg exSrc [exTrack] [] []).counts.staleUnlinks = 0 ∧
    (∀ b p, Ev.removeStale b p ∉ (runTwice exCfg exSrc [exTrack] [] []).events) ∧
    (runTwice exCfg exSrc [exTrack] [] []).sweepPreRemoved = 0 ∧
    (runTwice exCfg exSrc [exTrack] [] []).sweepPostRemoved = 0 ∧
    (runTwice exCfg exSrc [exTrack] [] []).counts.created = [exTrack].length :=
  claim_c2_idempotence_amended exCfg exSrc [exTrack] [] [] rfl (by decide)
    (by decide) (by decide) (by decide) (by decide)

end MusicSymlinker
